import Mathlib

/-!
Verification of the Expenza expense-tracker core (src/expense_tracker.py).

This file shallowly embeds the persistence and mutation engine of the
tracker: amount normalization (Python decimal strings), date parsing and
formatting, the record store (expenses, budgets, categories), the atomic
save protocol, interactive edit, CSV import with its dedup key, monthly
totals, category cascade removal, and budget status.

Conventions of the embedding:
* Python strings are Lean `String`s; character-level work happens on
  `List Char` via `String.data`.
* Python `Decimal` is modelled for finite decimal literals (optional sign,
  digits with optional point, optional exponent), including the
  constructor's stripping of surrounding whitespace and of underscores.
  Special values (NaN, Infinity) and non-ASCII digits are outside the
  model.  The printer `decToChars` implements the to-scientific-string
  algorithm used by `Decimal.__str__`.
* `datetime` is modelled by `PyDateTime`; `datetime.fromisoformat` follows
  the strict pre-3.11 grammar (padded date, optional separator character,
  HH:MM[:SS[.fff|.ffffff]]), without timezone offsets; `strptime` formats
  are modelled with greedy 1-2 digit fields and exactly four year digits,
  with calendar validation.
* Fallible operations return `Except`/`Option`; the process-level
  `try/except` wrappers that merely print a traceback are represented by
  `Option` results.
-/

deriving instance DecidableEq for Except

/-- ASCII whitespace as stripped by python str.strip. -/
def isSpaceC (c : Char) : Bool :=
  decide (c.toNat = 32 ∨ c.toNat = 9 ∨ c.toNat = 10 ∨ c.toNat = 13 ∨
          c.toNat = 11 ∨ c.toNat = 12)

/-- ASCII digit test. -/
def isDigitC (c : Char) : Bool :=
  decide (48 ≤ c.toNat ∧ c.toNat ≤ 57)

/-- Numeric value of a digit character. -/
def digitVal (c : Char) : Nat := c.toNat - 48

/-- Digit character for a value below ten. -/
def digitCharC (d : Nat) : Char :=
  if d = 0 then '0' else if d = 1 then '1' else if d = 2 then '2'
  else if d = 3 then '3' else if d = 4 then '4' else if d = 5 then '5'
  else if d = 6 then '6' else if d = 7 then '7' else if d = 8 then '8'
  else '9'

/-- Decimal digit expansion, recursive reference version used in proofs. -/
def natDigitsW (n : Nat) : List Char :=
  if h : n < 10 then [digitCharC n]
  else natDigitsW (n / 10) ++ [digitCharC (n % 10)]
decreasing_by exact Nat.div_lt_self (by omega) (by omega)

/-- Fuelled digit expansion; structural so that the kernel can evaluate it. -/
def natDigitsAux : Nat → Nat → List Char → List Char
  | 0, _, acc => acc
  | fuel + 1, n, acc =>
    if n < 10 then digitCharC n :: acc
    else natDigitsAux fuel (n / 10) (digitCharC (n % 10) :: acc)

/-- Decimal digit expansion of a natural number, most significant first. -/
def natDigits (n : Nat) : List Char := natDigitsAux (n + 1) n []

/-- Value of a digit string read left to right. -/
def parseNatDigits (l : List Char) : Nat :=
  l.foldl (fun a c => 10 * a + digitVal c) 0

/-- Drop leading characters satisfying p from the left only. -/
def dropL (p : Char → Bool) (l : List Char) : List Char := l.dropWhile p

/-- Drop trailing characters satisfying p. -/
def dropR (p : Char → Bool) (l : List Char) : List Char :=
  (l.reverse.dropWhile p).reverse

/-- Python str.strip restricted to ASCII whitespace. -/
def stripChars (l : List Char) : List Char := dropR isSpaceC (dropL isSpaceC l)

/-- Python s.replace(x, "") for a single character x. -/
def removeChar (x : Char) (l : List Char) : List Char := l.filter (fun c => c ≠ x)

/-- Finite Python Decimal: sign, coefficient and exponent, value
(-1)^neg * coeff * 10^exp. -/
structure Dec where
  neg : Bool
  coeff : Nat
  exp : Int
deriving DecidableEq

/-- Exact rational value of a finite decimal. -/
def decValue (d : Dec) : ℚ :=
  let s : ℚ := if d.neg then -1 else 1
  match d.exp with
  | .ofNat n => s * (d.coeff : ℚ) * ((10 ^ n : ℕ) : ℚ)
  | .negSucc n => s * (d.coeff : ℚ) / ((10 ^ (n + 1) : ℕ) : ℚ)

/-- Consume an optional leading sign. -/
def splitSign : List Char → Bool × List Char
  | '-' :: rest => (true, rest)
  | '+' :: rest => (false, rest)
  | l => (false, l)

/-- Scan the coefficient part of a decimal literal: digits with an optional
point, at least one digit overall.  Returns combined coefficient value,
number of fraction digits, and the unconsumed remainder. -/
def parseMantissa (l : List Char) : Option (Nat × Nat × List Char) :=
  let ip := l.takeWhile isDigitC
  let r := l.dropWhile isDigitC
  match r with
  | '.' :: r2 =>
    let fp := r2.takeWhile isDigitC
    let r3 := r2.dropWhile isDigitC
    if ip = [] ∧ fp = [] then none
    else some (parseNatDigits (ip ++ fp), fp.length, r3)
  | _ => if ip = [] then none else some (parseNatDigits ip, 0, r)

/-- Signed digit string after the exponent marker. -/
def parseExpTail (rest : List Char) : Option Int :=
  let (en, r) := splitSign rest
  let ds := r.takeWhile isDigitC
  let r2 := r.dropWhile isDigitC
  if ds = [] ∨ r2 ≠ [] then none
  else some (if en then -(parseNatDigits ds : Int) else (parseNatDigits ds : Int))

/-- Scan the exponent part of a decimal literal; the empty remainder means
exponent zero, anything else must be a complete e/E exponent. -/
def parseExpPart : List Char → Option Int
  | [] => some 0
  | c :: rest => if c = 'e' ∨ c = 'E' then parseExpTail rest else none

/-- Parse a complete finite decimal literal. -/
def parseDec (l : List Char) : Option Dec :=
  let (ng, r) := splitSign l
  match parseMantissa r with
  | none => none
  | some (co, fl, rest) =>
    match parseExpPart rest with
    | none => none
    | some ev => some ⟨ng, co, ev - (fl : Int)⟩

/-- Python Decimal(s) construction on a string: strip whitespace, remove
underscores, then parse the literal. -/
def pyDecimal (l : List Char) : Option Dec :=
  parseDec (removeChar '_' (stripChars l))

/-- Exponent rendered as in python "%+d". -/
def expSignDigits (k : Int) : List Char :=
  if k < 0 then '-' :: natDigits k.natAbs else '+' :: natDigits k.natAbs

/-- Python Decimal.__str__ (to-scientific-string) for finite values. -/
def decToChars (d : Dec) : List Char :=
  let ds := natDigits d.coeff
  let len : Int := (ds.length : Int)
  let sgn : List Char := if d.neg then ['-'] else []
  if d.exp ≤ 0 ∧ -6 < d.exp + len then
    if d.exp = 0 then sgn ++ ds
    else if d.exp + len ≤ 0 then
      sgn ++ '0' :: '.' :: (List.replicate (-(d.exp + len)).toNat '0' ++ ds)
    else
      sgn ++ ds.take (d.exp + len).toNat ++ '.' :: ds.drop (d.exp + len).toNat
  else
    (sgn ++ (if ds.length ≤ 1 then ds else ds.take 1 ++ '.' :: ds.drop 1))
      ++ 'E' :: expSignDigits (d.exp + len - 1)

/-- Source normalize_amount: require a non-empty value, strip it, delete
every comma and dollar sign, construct a Decimal and return its canonical
string. -/
def normalize_amount (val : Option String) : Except String String :=
  match val with
  | none => .error "Amount required"
  | some v =>
    let s := stripChars v.data
    if s = [] then .error "Amount required"
    else
      let t := removeChar '$' (removeChar ',' s)
      match pyDecimal t with
      | none => .error "Invalid amount"
      | some d => .ok (String.mk (decToChars d))

/-- Naive Gregorian datetime as used by the tracker. -/
structure PyDateTime where
  year : Nat
  month : Nat
  day : Nat
  hour : Nat
  minute : Nat
  second : Nat
  usec : Nat
deriving DecidableEq

/-- Leap-year test of the proleptic Gregorian calendar. -/
def isLeap (y : Nat) : Bool :=
  (y % 4 = 0 && y % 100 ≠ 0) || y % 400 = 0

/-- Length of a month. -/
def daysInMonth (y m : Nat) : Nat :=
  if m = 2 then (if isLeap y then 29 else 28)
  else if m = 4 ∨ m = 6 ∨ m = 9 ∨ m = 11 then 30
  else 31

/-- Validity checks performed by the datetime constructor. -/
def validDate (y m d : Nat) : Bool :=
  1 ≤ y && y ≤ 9999 && 1 ≤ m && m ≤ 12 && 1 ≤ d && d ≤ daysInMonth y m

def validTime (h mi s : Nat) : Bool :=
  h ≤ 23 && mi ≤ 59 && s ≤ 59

/-- Value of a two-digit field. -/
def d2 (a b : Char) : Option Nat :=
  if isDigitC a && isDigitC b then some (10 * digitVal a + digitVal b) else none

/-- Value of a four-digit field. -/
def d4 (a b c e : Char) : Option Nat :=
  if isDigitC a && isDigitC b && isDigitC c && isDigitC e then
    some (1000 * digitVal a + 100 * digitVal b + 10 * digitVal c + digitVal e)
  else none

/-- Time-of-day part of datetime.fromisoformat (pre-3.11 grammar):
HH:MM, HH:MM:SS, or HH:MM:SS with a 3- or 6-digit fraction. -/
def fromisoTime : List Char → Option (Nat × Nat × Nat × Nat)
  | [h1, h2, ':', m1, m2] => do
    let h ← d2 h1 h2
    let mi ← d2 m1 m2
    if validTime h mi 0 then some (h, mi, 0, 0) else none
  | [h1, h2, ':', m1, m2, ':', s1, s2] => do
    let h ← d2 h1 h2
    let mi ← d2 m1 m2
    let s ← d2 s1 s2
    if validTime h mi s then some (h, mi, s, 0) else none
  | [h1, h2, ':', m1, m2, ':', s1, s2, '.', f1, f2, f3] => do
    let h ← d2 h1 h2
    let mi ← d2 m1 m2
    let s ← d2 s1 s2
    if isDigitC f1 && isDigitC f2 && isDigitC f3 && validTime h mi s then
      some (h, mi, s, (100 * digitVal f1 + 10 * digitVal f2 + digitVal f3) * 1000)
    else none
  | [h1, h2, ':', m1, m2, ':', s1, s2, '.', f1, f2, f3, f4, f5, f6] => do
    let h ← d2 h1 h2
    let mi ← d2 m1 m2
    let s ← d2 s1 s2
    if isDigitC f1 && isDigitC f2 && isDigitC f3 && isDigitC f4 && isDigitC f5 &&
        isDigitC f6 && validTime h mi s then
      some (h, mi, s,
        100000 * digitVal f1 + 10000 * digitVal f2 + 1000 * digitVal f3 +
          100 * digitVal f4 + 10 * digitVal f5 + digitVal f6)
    else none
  | _ => none

/-- Python datetime.fromisoformat, pre-3.11 grammar: a padded
YYYY-MM-DD date, optionally followed by one separator character (any
character) and a time; timezone offsets are outside the model. -/
def fromiso (l : List Char) : Option PyDateTime :=
  match l with
  | [y1, y2, y3, y4, '-', m1, m2, '-', dd1, dd2] => do
    let y ← d4 y1 y2 y3 y4
    let m ← d2 m1 m2
    let d ← d2 dd1 dd2
    if validDate y m d then some ⟨y, m, d, 0, 0, 0, 0⟩ else none
  | y1 :: y2 :: y3 :: y4 :: '-' :: m1 :: m2 :: '-' :: dd1 :: dd2 :: _sep :: rest => do
    let y ← d4 y1 y2 y3 y4
    let m ← d2 m1 m2
    let d ← d2 dd1 dd2
    let (h, mi, s, us) ← fromisoTime rest
    if validDate y m d then some ⟨y, m, d, h, mi, s, us⟩ else none
  | _ => none

/-- Greedy 1-2 digit numeric field as matched by strptime directives. -/
def take12 : List Char → Option (Nat × List Char)
  | [] => none
  | c :: rest =>
    if isDigitC c then
      match rest with
      | c2 :: rest2 =>
        if isDigitC c2 then some (10 * digitVal c + digitVal c2, rest2)
        else some (digitVal c, rest)
      | [] => some (digitVal c, [])
    else none

/-- Exactly-four-digit year field of strptime %Y. -/
def take4 : List Char → Option (Nat × List Char)
  | a :: b :: c :: e :: rest => (d4 a b c e).map (fun y => (y, rest))
  | _ => none

/-- Literal character in a strptime format. -/
def lit (c : Char) : List Char → Option (List Char)
  | x :: rest => if x = c then some rest else none
  | [] => none

/-- strptime "%Y-%m-%d". -/
def strpYMD (l : List Char) : Option PyDateTime := do
  let (y, r1) ← take4 l
  let r2 ← lit '-' r1
  let (m, r3) ← take12 r2
  let r4 ← lit '-' r3
  let (d, r5) ← take12 r4
  if r5 = [] ∧ validDate y m d then some ⟨y, m, d, 0, 0, 0, 0⟩ else none

/-- strptime "%Y-%m-%d %H:%M:%S". -/
def strpYMDHMS (l : List Char) : Option PyDateTime := do
  let (y, r1) ← take4 l
  let r2 ← lit '-' r1
  let (m, r3) ← take12 r2
  let r4 ← lit '-' r3
  let (d, r5) ← take12 r4
  let r6 ← lit ' ' r5
  let (h, r7) ← take12 r6
  let r8 ← lit ':' r7
  let (mi, r9) ← take12 r8
  let r10 ← lit ':' r9
  let (s, r11) ← take12 r10
  if r11 = [] ∧ validDate y m d ∧ validTime h mi s then some ⟨y, m, d, h, mi, s, 0⟩
  else none

/-- strptime "%d-%m-%Y" and "%d/%m/%Y" share this shape. -/
def strpDMY (sep : Char) (l : List Char) : Option PyDateTime := do
  let (d, r1) ← take12 l
  let r2 ← lit sep r1
  let (m, r3) ← take12 r2
  let r4 ← lit sep r3
  let (y, r5) ← take4 r4
  if r5 = [] ∧ validDate y m d then some ⟨y, m, d, 0, 0, 0, 0⟩ else none

/-- Source parse_date: empty input yields None; otherwise strip, try
fromisoformat, then the four strptime formats in order, else ValueError. -/
def parse_date (s : String) : Except Unit (Option PyDateTime) :=
  if s.data = [] then .ok none
  else
    let t := stripChars s.data
    match fromiso t with
    | some dt => .ok (some dt)
    | none =>
      match strpYMD t with
      | some dt => .ok (some dt)
      | none =>
        match strpYMDHMS t with
        | some dt => .ok (some dt)
        | none =>
          match strpDMY '-' t with
          | some dt => .ok (some dt)
          | none =>
            match strpDMY '/' t with
            | some dt => .ok (some dt)
            | none => .error ()

/-- Zero-padded numeral of fixed minimum width. -/
def padNum (w n : Nat) : List Char :=
  let ds := natDigits n
  List.replicate (w - ds.length) '0' ++ ds

/-- Python datetime.isoformat: microseconds appear only when nonzero. -/
def isoformat (dt : PyDateTime) : String :=
  String.mk (padNum 4 dt.year ++ '-' :: padNum 2 dt.month ++ '-' :: padNum 2 dt.day ++
    'T' :: padNum 2 dt.hour ++ ':' :: padNum 2 dt.minute ++ ':' :: padNum 2 dt.second ++
    (if dt.usec = 0 then [] else '.' :: padNum 6 dt.usec))

/-- Python strftime "%Y-%m" month key. -/
def fmtYM (dt : PyDateTime) : String :=
  String.mk (padNum 4 dt.year ++ '-' :: padNum 2 dt.month)

/-- Expense record as persisted in expenses.json. -/
structure Expense where
  id : String
  amount : String
  category : String
  note : String
  date : String
  created_at : String
  updated_at : String
deriving DecidableEq

/-- Root aggregate: the whole persisted dataset. -/
structure Dataset where
  expenses : List Expense
  budgets : List (String × String)
  categories : List String
deriving DecidableEq

/-- File-system view relevant to atomic_save: the canonical file, the
single backup slot, and the .tmp staging file; none means absent. -/
structure FS where
  canonical : Option Dataset
  backup : Option Dataset
  tmp : Option Dataset
deriving DecidableEq

/-- Outcome of one atomic_save attempt: the temp-file write and the rename
either both succeed (with the best-effort backup copy succeeding or not),
or the write fails mid-way, or the rename itself fails. -/
inductive SaveOutcome where
  | ok (backupOk : Bool)
  | writeFail
  | renameFail
deriving DecidableEq

/-- Source atomic_save: write the dataset to DATA_FILE + ".tmp", os.replace
it over DATA_FILE, then best-effort shutil.copy of the new canonical file
onto BACKUP_FILE; the finally block removes the temp file whenever it still
exists.  Returns the final file system and whether the save succeeded. -/
def atomic_save (d : Dataset) (fs : FS) (oc : SaveOutcome) : FS × Bool :=
  match oc with
  | .ok backupOk =>
    ({ canonical := some d,
       backup := if backupOk then some d else fs.backup,
       tmp := none }, true)
  | .writeFail => ({ fs with tmp := none }, false)
  | .renameFail => ({ fs with tmp := none }, false)

/-- Python string truthiness helper: a or b for strings. -/
def pyStrOr (o : Option String) (dflt : String) : String :=
  match o with
  | some s => if s = "" then dflt else s
  | none => dflt

/-- Python s.strip() at the String level. -/
def stripS (s : String) : String := String.mk (stripChars s.data)

/-- Source mk_expense: resolve the attributed date (parse and re-serialize
when supplied, otherwise the current time), normalize the amount, default a
blank category to "Misc", strip the note.  Fresh id and now timestamps are
supplied by the caller. -/
def mk_expense (amount category note : String) (date : Option String)
    (newId nowISO : String) : Except String Expense := do
  let date_iso ←
    match date with
    | some d =>
      if d = "" then pure nowISO
      else
        match parse_date d with
        | .ok (some dt) => pure (isoformat dt)
        | _ => throw "Invalid date format. Use YYYY-MM-DD or ISO format."
    | none => pure nowISO
  let amt ← normalize_amount (some amount)
  pure { id := newId, amount := amt,
         category := if stripS category = "" then "Misc" else stripS category,
         note := stripS note, date := date_iso,
         created_at := nowISO, updated_at := nowISO }

/-- Source edit_interactive field phase: each supplied (non-blank) field is
applied; an invalid amount or date is skipped without blocking the other
fields; updated_at is always refreshed. -/
def applyEdit (e : Expense) (new_amt new_cat new_note new_date : String)
    (now : String) : Expense :=
  let e1 :=
    if new_amt ≠ "" then
      match normalize_amount (some new_amt) with
      | .ok v => { e with amount := v }
      | .error _ => e
    else e
  let e2 := if new_cat ≠ "" then { e1 with category := new_cat } else e1
  let e3 := if new_note ≠ "" then { e2 with note := new_note } else e2
  let e4 :=
    if new_date ≠ "" then
      match parse_date new_date with
      | .ok (some dt) => { e3 with date := isoformat dt }
      | _ => e3
    else e3
  { e4 with updated_at := now }

/-- Replace the first stored expense carrying the given id. -/
def replaceById (l : List Expense) (e : Expense) : List Expense :=
  match l with
  | [] => []
  | x :: rest => if x.id = e.id then e :: rest else x :: replaceById rest e

/-- Source edit_interactive commit phase: write the edited expense back
over the stored one and register its category if new. -/
def edit_commit (data : Dataset) (e : Expense) : Dataset :=
  let d := { data with expenses := replaceById data.expenses e }
  if e.category ∈ d.categories then d
  else { d with categories := d.categories ++ [e.category] }

/-- CSV row as produced by csv.DictReader: absent columns are none. -/
structure Row where
  amount : Option String
  amt : Option String
  category : Option String
  note : Option String
  date : Option String
deriving DecidableEq

/-- Dedup key tuple (amount, date, category, note). -/
abbrev DedupKey := String × String × String × String

/-- State threaded through the import loop. -/
structure ImportState where
  data : Dataset
  keys : List DedupKey
  imported : Nat
deriving DecidableEq

/-- Source import_csv row step: resolve columns with python or-defaults,
normalize the amount, skip the row if its (normalized amount, raw date,
raw category, raw note) key is already known, otherwise build the expense,
append it and record its stored-field key; any exception skips the row. -/
def importRow (st : ImportState) (row : Row) (newId nowISO : String) : ImportState :=
  let amount := pyStrOr row.amount (pyStrOr row.amt "0")
  let category := pyStrOr row.category "Imported"
  let note := pyStrOr row.note ""
  let dateOpt : Option String :=
    match row.date with
    | some s => if s = "" then none else some s
    | none => none
  match normalize_amount (some amount) with
  | .error _ => st
  | .ok na =>
    let key : DedupKey := (na, dateOpt.getD "", category, note)
    if key ∈ st.keys then st
    else
      match mk_expense amount category note dateOpt newId nowISO with
      | .error _ => st
      | .ok e =>
        { data := { st.data with expenses := st.data.expenses ++ [e] },
          keys := st.keys ++ [(e.amount, e.date, e.category, e.note)],
          imported := st.imported + 1 }

/-- Source import_csv: seed the seen-key set from the loaded expenses, run
every row through importRow, return the dataset to save and the imported
count.  gen supplies the fresh uuid and now timestamp for each row index. -/
def import_csv (gen : Nat → String × String) (rows : List Row) (data : Dataset) :
    Dataset × Nat :=
  let init : ImportState :=
    { data := data,
      keys := data.expenses.map (fun e => (e.amount, e.date, e.category, e.note)),
      imported := 0 }
  let final := (rows.enum).foldl (fun st p => importRow st p.2 (gen p.1).1 (gen p.1).2) init
  (final.data, final.imported)

/-- Month bucket of one expense in summary_by_month: the %Y-%m key when the
stored date parses with fromisoformat, the "unknown" bucket otherwise. -/
def expenseMonthKey (e : Expense) : String :=
  match fromiso e.date.data with
  | some dt => fmtYM dt
  | none => "unknown"

/-- dict.setdefault(k, 0) followed by totals[k] += v, preserving insertion
order. -/
def addToTotals (t : List (String × ℚ)) (k : String) (v : ℚ) : List (String × ℚ) :=
  match t with
  | [] => [(k, v)]
  | (k', v') :: rest => if k' = k then (k', v' + v) :: rest else (k', v') :: addToTotals rest k v

/-- Traverse a list with a fallible function, failing on the first error,
as the uncaught exception in summary_by_month does. -/
def mapOptionList (f : α → Option β) : List α → Option (List β)
  | [] => some []
  | x :: l =>
    match f x with
    | none => none
    | some y =>
      match mapOptionList f l with
      | none => none
      | some ys => some (y :: ys)

/-- Source summary_by_month accumulation: every expense lands in exactly
one bucket; a Decimal parse failure aborts the whole summary (none). -/
def monthly_totals (exps : List Expense) : Option (List (String × ℚ)) :=
  match mapOptionList
      (fun e => (pyDecimal e.amount.data).map (fun d => (expenseMonthKey e, decValue d)))
      exps with
  | none => none
  | some pairs => some (pairs.foldl (fun t p => addToTotals t p.1 p.2) [])

/-- Monetary value of a stored amount string, zero when unparsable (the
claims that use it always assume parsability). -/
def amountValD (e : Expense) : ℚ :=
  match pyDecimal e.amount.data with
  | some d => decValue d
  | none => 0

/-- Whether budget_status counts an expense towards the queried month. -/
def inMonth (e : Expense) (month : String) : Bool :=
  match fromiso e.date.data with
  | some dt => decide (fmtYM dt = month)
  | none => false

/-- Sum of the values attached to one key in a pair list. -/
def keySum (ps : List (String × ℚ)) (M : String) : ℚ :=
  ((ps.filter (fun p => p.1 == M)).map Prod.snd).sum

/-- Cascade choice offered by manage_categories when removing a category. -/
inductive Cascade where
  | Delete
  | Reassign (x : String)
  | Abort
deriving DecidableEq

/-- Source manage_categories remove branch: only a known category can be
removed; with no referencing expenses it is removed outright; otherwise the
cascade choice deletes the referencing expenses, reassigns them (when the
new name is non-blank), or cancels.  Returns the dataset and category set. -/
def remove_category (data : Dataset) (cats : List String) (c : String) (act : Cascade) :
    Dataset × List String :=
  if c ∈ cats then
    if (data.expenses.filter (fun e => e.category = c)).isEmpty then
      (data, cats.filter (fun x => x ≠ c))
    else
      match act with
      | .Delete =>
        ({ data with expenses := data.expenses.filter (fun e => e.category ≠ c) },
         cats.filter (fun x => x ≠ c))
      | .Reassign x =>
        if x ≠ "" then
          let newExps := data.expenses.map
            (fun e => if e.category = c then { e with category := x } else e)
          let newCats := (cats.filter (fun y => y ≠ c)) ++
            (if x ∈ cats.filter (fun y => y ≠ c) then [] else [x])
          ({ data with expenses := newExps }, newCats)
        else (data, cats)
      | .Abort => (data, cats)
  else (data, cats)

/-- Source budget_status spending loop: an expense counts when its stored
date parses with fromisoformat into the queried month and its amount parses
as a Decimal; any per-expense exception just skips that expense. -/
def spentStep (month : String) (total : ℚ) (e : Expense) : ℚ :=
  match fromiso e.date.data with
  | some dt =>
    if fmtYM dt = month then
      match pyDecimal e.amount.data with
      | some d => total + decValue d
      | none => total
    else total
  | none => total

def spentIn (exps : List Expense) (month : String) : ℚ :=
  exps.foldl (spentStep month) 0

/-- Result of budget_status for one month. -/
structure BudgetStatus where
  spent : ℚ
  budget : Option ℚ
  remaining : Option ℚ
  exceeded : Bool
deriving DecidableEq

/-- Source budget_status: spent is the month's skipping sum; a missing or
blank budget reports no budget; an unparsable stored budget aborts (none);
otherwise remaining = budget - spent and the alert fires iff remaining < 0. -/
def budget_status (data : Dataset) (month : String) : Option BudgetStatus :=
  let total := spentIn data.expenses month
  match data.budgets.lookup month with
  | none => some { spent := total, budget := none, remaining := none, exceeded := false }
  | some b =>
    if b = "" then
      some { spent := total, budget := none, remaining := none, exceeded := false }
    else
      match pyDecimal b.data with
      | none => none
      | some bd =>
        some { spent := total, budget := some (decValue bd),
               remaining := some (decValue bd - total),
               exceeded := decide (decValue bd - total < 0) }

/-- dict assignment data["budgets"][month] = b. -/
def upsertAssoc (l : List (String × String)) (k v : String) : List (String × String) :=
  match l with
  | [] => [(k, v)]
  | (k', v') :: rest => if k' = k then (k, v) :: rest else (k', v') :: upsertAssoc rest k v

/-- Source set_budget: validate the month key by parsing month + "-01" with
strptime "%Y-%m-%d", normalize the amount, then store it last-write-wins. -/
def set_budget (data : Dataset) (month amt : String) : Option Dataset :=
  match strpYMD (month ++ "-01").data with
  | none => none
  | some _ =>
    match normalize_amount (some amt) with
    | .error _ => none
    | .ok b => some { data with budgets := upsertAssoc data.budgets month b }

/-- Fixture expense dated 2024-03-01 with amount 12.50. -/
def fixE1 : Expense := ⟨"a1", "12.50", "Food", "", "2024-03-01T00:00:00", "t0", "t0"⟩

/-- Fixture expense dated 2024-03-15 with amount 7.00. -/
def fixE2 : Expense := ⟨"b2", "7.00", "Food", "", "2024-03-15T00:00:00", "t0", "t0"⟩

/-- Fixture dataset with one expense. -/
def fixD1 : Dataset := ⟨[fixE1], [], ["Food"]⟩

/-- Empty dataset. -/
def fixEmpty : Dataset := ⟨[], [], []⟩

/-- Fixture CSV row whose date is a plain calendar date. -/
def fixRow : Row := ⟨some "12.50", none, some "Food", some "", some "2024-03-01"⟩

/-- Fixture id/timestamp supply for imports. -/
def fixGen : Nat → String × String := fun _ => ("id0", "2025-01-01T00:00:00")

/-- Dataset whose expense uses a category missing from the registry, as
import_csv produces (it never registers categories). -/
def fixStale : Dataset := ⟨[⟨"c3", "5", "Imported", "", "2024-03-01T00:00:00", "t0", "t0"⟩], [], []⟩

/-- Fixture dataset for the budget scenario: 12.50 and 7.00 in 2024-03. -/
def fixDS : Dataset := ⟨[fixE1, fixE2], [], ["Food"]⟩

/-- The budget scenario dataset after set_budget("2024-03", "15.00"). -/
def fixDSB : Dataset := ⟨[fixE1, fixE2], [("2024-03", "15.00")], ["Food"]⟩

/-- Remainders that legally follow a mantissa: nothing, or a non-digit
character that is not the decimal point. -/
def mantissaStop (rest : List Char) : Prop :=
  rest = [] ∨ ∃ c t, rest = c :: t ∧ isDigitC c = false ∧ c ≠ '.'

theorem natDigitsAux_eq_natDigitsW (fuel : Nat) :
    ∀ n acc, n < 10 ^ fuel → natDigitsAux (fuel + 1) n acc = natDigitsW n ++ acc := by
  induction fuel with
  | zero =>
    intro n acc h
    have hn : n = 0 := by omega
    subst hn
    simp [natDigitsAux, natDigitsW]
  | succ fuel ih =>
    intro n acc h
    rw [natDigitsAux]
    by_cases h10 : n < 10
    · rw [if_pos h10, natDigitsW, dif_pos h10]
      rfl
    · rw [if_neg h10]
      have hd : n / 10 < 10 ^ fuel := by
        have hp : (10 : Nat) ^ (fuel + 1) = 10 ^ fuel * 10 := pow_succ 10 fuel
        omega
      have hrec : natDigitsW n = natDigitsW (n / 10) ++ [digitCharC (n % 10)] := by
        rw [natDigitsW, dif_neg h10]
      rw [ih (n / 10) _ hd, hrec]
      simp

theorem natDigits_eq_natDigitsW (n : Nat) : natDigits n = natDigitsW n := by
  have h : n < 10 ^ n := Nat.lt_pow_self (by omega) n
  have := natDigitsAux_eq_natDigitsW n n [] h
  simpa [natDigits] using this

example : parse_date "2024-03-01" = .ok (some ⟨2024, 3, 1, 0, 0, 0, 0⟩) := by decide

example : parse_date "2024-3-1" = .ok (some ⟨2024, 3, 1, 0, 0, 0, 0⟩) := by decide

example : parse_date "01/02/2024" = .ok (some ⟨2024, 2, 1, 0, 0, 0, 0⟩) := by decide

example : parse_date "2024-03-01T10:20:30" = .ok (some ⟨2024, 3, 1, 10, 20, 30, 0⟩) := by
  decide

example : parse_date "" = .ok none := by decide

example : parse_date "2024-02-30" = .error () := by decide

example : isoformat ⟨2024, 3, 1, 0, 0, 0, 0⟩ = "2024-03-01T00:00:00" := by decide

example : fmtYM ⟨2024, 3, 1, 10, 20, 30, 0⟩ = "2024-03" := by decide

example : normalize_amount (some "1,234.50") = .ok "1234.50" := by decide

example : normalize_amount (some " $7 ") = .ok "7" := by decide

example : normalize_amount (some "1,2,3") = .ok "123" := by decide

example : normalize_amount (some "1$2$") = .ok "12" := by decide

example : normalize_amount (some "0.0000001") = .ok "1E-7" := by decide

example : normalize_amount (some "-0.00") = .ok "-0.00" := by decide

example : normalize_amount (some "abc") = .error "Invalid amount" := by decide

example : normalize_amount (some "  ") = .error "Amount required" := by decide

example : normalize_amount none = .error "Amount required" := by decide

theorem edit_commit_expenses (data : Dataset) (e : Expense) :
    (edit_commit data e).expenses = replaceById data.expenses e := by
  by_cases h : e.category ∈ data.categories <;> simp [edit_commit, h]

theorem mem_replaceById (l : List Expense) (w : Expense) :
    (∃ x ∈ l, x.id = w.id) → w ∈ replaceById l w := by
  intro h
  induction l with
  | nil => simp at h
  | cons x rest ih =>
    rw [replaceById]
    by_cases hx : x.id = w.id
    · rw [if_pos hx]
      exact List.mem_cons_self _ _
    · rw [if_neg hx]
      rcases h with ⟨y, hy, hyid⟩
      rcases List.mem_cons.mp hy with hyx | hyr
      · exact absurd (hyx ▸ hyid) hx
      · exact List.mem_cons_of_mem _ (ih ⟨y, hyr, hyid⟩)

/-- C1 (code bug evidence): atomic_save copies the file it has just renamed
into place onto the backup slot, so after every fully successful save the
backup equals the new dataset, not the previously canonical one; at the
concrete input the backup no longer holds the prior dataset. -/
theorem atomic_save_backup_equals_new_dataset :
    (∀ (d : Dataset) (fs : FS), (atomic_save d fs (.ok true)).1.backup = some d) ∧
    (atomic_save fixEmpty ⟨some fixD1, some fixD1, none⟩ (.ok true)).1.backup ≠ some fixD1 := by
  constructor
  · intro d fs
    rfl
  · decide

/-- C2: if the temp-file write or the rename fails, the canonical file (and
the backup) are unchanged, and on every outcome of atomic_save the
temporary file is gone afterwards. -/
theorem atomic_save_failure_leaves_canonical :
    ∀ (d : Dataset) (fs : FS),
      (atomic_save d fs .writeFail).1.canonical = fs.canonical ∧
      (atomic_save d fs .writeFail).1.backup = fs.backup ∧
      (atomic_save d fs .renameFail).1.canonical = fs.canonical ∧
      (atomic_save d fs .renameFail).1.backup = fs.backup ∧
      (∀ oc : SaveOutcome, (atomic_save d fs oc).1.tmp = none) := by
  intro d fs
  refine ⟨rfl, rfl, rfl, rfl, ?_⟩
  intro oc
  cases oc <;> rfl

/-- C3 (code bug evidence): importing the same one-row file twice imports
the row again on the second pass (1, not 0): the dedup key uses the raw
date string while the stored expense holds the re-serialized ISO form. -/
theorem import_csv_second_pass_reimports :
    (import_csv fixGen [fixRow] fixEmpty).2 = 1 ∧
    (import_csv fixGen [fixRow] (import_csv fixGen [fixRow] fixEmpty).1).2 = 1 := by
  decide

/-- C6: editing an existing expense with an invalid amount and a non-blank
category keeps the previous amount, commits the new category, leaves the
unsupplied note and date (and id, created_at) unchanged, refreshes
updated_at, and the edited record is committed into the store. -/
theorem edit_invalid_amount_commits_category :
    ∀ (e : Expense) (a c now m : String) (data : Dataset),
      normalize_amount (some a) = .error m →
      c ≠ "" →
      (applyEdit e a c "" "" now).amount = e.amount ∧
      (applyEdit e a c "" "" now).category = c ∧
      (applyEdit e a c "" "" now).note = e.note ∧
      (applyEdit e a c "" "" now).date = e.date ∧
      (applyEdit e a c "" "" now).id = e.id ∧
      (applyEdit e a c "" "" now).created_at = e.created_at ∧
      (applyEdit e a c "" "" now).updated_at = now ∧
      ((∃ x ∈ data.expenses, x.id = e.id) →
        applyEdit e a c "" "" now ∈ (edit_commit data (applyEdit e a c "" "" now)).expenses) := by
  intro e a c now m data hm hc
  have hbody : applyEdit e a c "" "" now = { e with category := c, updated_at := now } := by
    unfold applyEdit
    by_cases ha : a = ""
    · subst ha
      simp [hc]
    · simp [ha, hc, hm]
  refine ⟨?_, ?_, ?_, ?_, ?_, ?_, ?_, ?_⟩
  · rw [hbody]
  · rw [hbody]
  · rw [hbody]
  · rw [hbody]
  · rw [hbody]
  · rw [hbody]
  · rw [hbody]
  · intro hex
    rw [edit_commit_expenses]
    apply mem_replaceById
    rw [hbody]
    exact hex

/-- Witness for the C6 theorem at a concrete edit. -/
theorem edit_invalid_amount_commits_category_witness :
    normalize_amount (some "abc") = .error "Invalid amount" ∧
    ("Transport" : String) ≠ "" ∧
    ((applyEdit fixE1 "abc" "Transport" "" "" "now").amount = fixE1.amount ∧
      (applyEdit fixE1 "abc" "Transport" "" "" "now").category = "Transport" ∧
      (applyEdit fixE1 "abc" "Transport" "" "" "now").note = fixE1.note ∧
      (applyEdit fixE1 "abc" "Transport" "" "" "now").date = fixE1.date ∧
      (applyEdit fixE1 "abc" "Transport" "" "" "now").id = fixE1.id ∧
      (applyEdit fixE1 "abc" "Transport" "" "" "now").created_at = fixE1.created_at ∧
      (applyEdit fixE1 "abc" "Transport" "" "" "now").updated_at = "now" ∧
      ((∃ x ∈ fixD1.expenses, x.id = fixE1.id) →
        applyEdit fixE1 "abc" "Transport" "" "" "now" ∈
          (edit_commit fixD1 (applyEdit fixE1 "abc" "Transport" "" "" "now")).expenses)) :=
  ⟨by decide, by decide,
    edit_invalid_amount_commits_category fixE1 "abc" "Transport" "now" "Invalid amount" fixD1
      (by decide) (by decide)⟩

/-- C8 (counterexample): on a dataset whose expense carries a category that
is absent from the category registry (as import_csv produces), remove(name,
Delete) is a no-op, so an expense with that category survives; the claim as
stated, quantified over every dataset, is false. -/
theorem remove_category_delete_counterexample :
    ((remove_category fixStale [] "Imported" .Delete).1.expenses.filter
      (fun e => e.category = "Imported")) ≠ [] ∧
    remove_category fixStale [] "Imported" .Delete = (fixStale, []) := by
  decide

/-- C8 (amended): for a category name present in the registry set: Delete
leaves no expense with that category and drops it from the set; Reassign x
with x non-blank, when some expense references the name, rewrites exactly
the referencing expenses to x, adds x to the set, and (when x differs from
the name) leaves no expense with the old name and drops it from the set;
Abort never changes the expenses, leaves everything unchanged when some
expense references the name, and otherwise just drops the name from the
set. -/
theorem remove_category_cascade :
    ∀ (data : Dataset) (cats : List String) (c : String),
      c ∈ cats →
      ((∀ e ∈ (remove_category data cats c .Delete).1.expenses, e.category ≠ c) ∧
        c ∉ (remove_category data cats c .Delete).2) ∧
      (∀ x, x ≠ "" → (∃ e ∈ data.expenses, e.category = c) →
        (remove_category data cats c (.Reassign x)).1.expenses =
          data.expenses.map (fun e => if e.category = c then { e with category := x } else e) ∧
        x ∈ (remove_category data cats c (.Reassign x)).2 ∧
        (x ≠ c →
          (∀ e ∈ (remove_category data cats c (.Reassign x)).1.expenses, e.category ≠ c) ∧
          c ∉ (remove_category data cats c (.Reassign x)).2)) ∧
      ((remove_category data cats c .Abort).1 = data ∧
        ((∃ e ∈ data.expenses, e.category = c) →
          remove_category data cats c .Abort = (data, cats)) ∧
        ((∀ e ∈ data.expenses, e.category ≠ c) →
          remove_category data cats c .Abort = (data, cats.filter (fun y => y ≠ c)))) := by
  intro data cats c hc
  by_cases hemp : (data.expenses.filter (fun e => e.category = c)).isEmpty
  · have hnone : ∀ e ∈ data.expenses, e.category ≠ c := by
      intro e he heq
      have : e ∈ data.expenses.filter (fun e => e.category = c) := by
        rw [List.mem_filter]
        exact ⟨he, by simp [heq]⟩
      rw [List.isEmpty_iff] at hemp
      rw [hemp] at this
      simp at this
    refine ⟨⟨?_, ?_⟩, ?_, ?_, ?_, ?_⟩
    · intro e he
      simp only [remove_category, if_pos hc, if_pos hemp] at he
      exact hnone e he
    · simp only [remove_category, if_pos hc, if_pos hemp]
      simp
    · intro x hx ⟨e, he, heq⟩
      exact absurd heq (hnone e he)
    · simp only [remove_category, if_pos hc, if_pos hemp]
    · intro ⟨e, he, heq⟩
      exact absurd heq (hnone e he)
    · intro _
      simp only [remove_category, if_pos hc, if_pos hemp]
  · refine ⟨⟨?_, ?_⟩, ?_, ?_, ?_, ?_⟩
    · intro e he
      simp only [remove_category, if_pos hc, if_neg hemp] at he
      rw [List.mem_filter] at he
      intro heq
      have := he.2
      simp [heq] at this
    · simp only [remove_category, if_pos hc, if_neg hemp]
      simp
    · intro x hx hex
      simp only [remove_category, if_pos hc, if_neg hemp, if_pos hx]
      refine ⟨by trivial, ?_, ?_⟩
      · rw [List.mem_append]
        by_cases hxin : x ∈ List.filter (fun y => decide (y ≠ c)) cats
        · exact Or.inl hxin
        · right
          rw [if_neg hxin]
          exact List.mem_singleton.mpr rfl
      · intro hxc
        constructor
        · intro e he heq
          rcases List.mem_map.mp he with ⟨e0, he0, heq0⟩
          by_cases h0 : e0.category = c
          · rw [if_pos h0] at heq0
            rw [← heq0] at heq
            exact hxc heq
          · rw [if_neg h0] at heq0
            rw [← heq0] at heq
            exact h0 heq
        · rw [List.mem_append]
          rintro (hmem | hmem)
          · rw [List.mem_filter] at hmem
            simp at hmem
          · by_cases hxin : x ∈ List.filter (fun y => decide (y ≠ c)) cats
            · rw [if_pos hxin] at hmem
              simp at hmem
            · rw [if_neg hxin] at hmem
              rw [List.mem_singleton] at hmem
              exact hxc hmem.symm
    · simp only [remove_category, if_pos hc, if_neg hemp]
    · intro _
      simp only [remove_category, if_pos hc, if_neg hemp]
    · intro hnone
      exfalso
      rw [List.isEmpty_iff] at hemp
      apply hemp
      rw [List.filter_eq_nil_iff]
      intro e he
      simp [hnone e he]

/-- Witness for the amended C8 theorem at a concrete dataset. -/
theorem remove_category_cascade_witness :
    ("Food" : String) ∈ (["Food"] : List String) ∧
    ((∀ e ∈ (remove_category fixD1 ["Food"] "Food" .Delete).1.expenses, e.category ≠ "Food") ∧
      ("Food" : String) ∉ (remove_category fixD1 ["Food"] "Food" .Delete).2) :=
  ⟨by decide,
    (remove_category_cascade fixD1 ["Food"] "Food" (by decide)).1⟩

theorem lookup_addToTotals (t : List (String × ℚ)) (k M : String) (v : ℚ) :
    List.lookup M (addToTotals t k v) =
      if M = k then some ((List.lookup M t).getD 0 + v) else List.lookup M t := by
  induction t with
  | nil =>
    by_cases h : M = k
    · subst h
      simp [addToTotals]
    · have hb : (M == k) = false := beq_eq_false_iff_ne.mpr h
      simp [addToTotals, List.lookup, hb, h]
  | cons p rest ih =>
    obtain ⟨k', v'⟩ := p
    rw [addToTotals]
    by_cases hk : k' = k
    · subst hk
      rw [if_pos rfl]
      by_cases hM : M = k'
      · subst hM
        simp [List.lookup]
      · have hb : (M == k') = false := beq_eq_false_iff_ne.mpr hM
        simp [List.lookup, hb, hM]
    · rw [if_neg hk]
      by_cases hM : M = k'
      · subst hM
        have hMk : ¬M = k := hk
        simp [List.lookup, if_neg hMk]
      · have hb : (M == k') = false := beq_eq_false_iff_ne.mpr hM
        simp [List.lookup, hb, ih]

theorem keySum_nil (M : String) : keySum [] M = 0 := rfl

theorem keySum_cons (p : String × ℚ) (ps : List (String × ℚ)) (M : String) :
    keySum (p :: ps) M = if p.1 == M then p.2 + keySum ps M else keySum ps M := by
  by_cases h : p.1 == M <;> simp [keySum, List.filter_cons, h]

theorem lookup_foldTotals (ps : List (String × ℚ)) :
    ∀ (acc : List (String × ℚ)) (M : String),
      List.lookup M (ps.foldl (fun t p => addToTotals t p.1 p.2) acc) =
        match List.lookup M acc with
        | some v => some (v + keySum ps M)
        | none => if ps.any (fun p => p.1 == M) then some (keySum ps M) else none := by
  induction ps with
  | nil =>
    intro acc M
    cases h : List.lookup M acc <;> simp [keySum, h]
  | cons p ps ih =>
    intro acc M
    rw [List.foldl_cons, ih]
    rw [lookup_addToTotals]
    by_cases hM : M = p.1
    · rw [if_pos hM]
      have hb : (p.1 == M) = true := by simp [hM.symm]
      cases h : List.lookup M acc with
      | none =>
        simp only [h, Option.getD_none, List.any_cons, hb, Bool.true_or, if_pos,
          keySum_cons, hb, if_true]
        rw [zero_add]
      | some v =>
        simp only [h, Option.getD_some, keySum_cons, hb, if_true]
        rw [add_assoc]
    · rw [if_neg hM]
      have hb : (p.1 == M) = false := by
        simp only [beq_eq_false_iff_ne, ne_eq]
        intro hcontra
        exact hM hcontra.symm
      cases h : List.lookup M acc with
      | none =>
        simp only [h, List.any_cons, keySum_cons, hb, Bool.false_eq_true, if_false,
          Bool.false_or]
      | some v => simp [h, keySum_cons, hb]

theorem keySum_map (exps : List Expense) (M : String) :
    keySum (exps.map (fun e => (expenseMonthKey e, amountValD e))) M =
      ((exps.filter (fun e => expenseMonthKey e == M)).map amountValD).sum := by
  induction exps with
  | nil => simp [keySum]
  | cons e l ih =>
    rw [List.map_cons, keySum_cons, List.filter_cons]
    by_cases h : (expenseMonthKey e == M) = true
    · simp only [h, if_true, List.map_cons, List.sum_cons, ih]
    · have hbf : (expenseMonthKey e == M) = false := by
        cases hb : (expenseMonthKey e == M)
        · rfl
        · exact absurd hb h
      simp only [hbf, Bool.false_eq_true, if_false, ih]

theorem mapOptionList_pairs :
    ∀ (exps : List Expense) (pairs : List (String × ℚ)),
      mapOptionList
        (fun e => (pyDecimal e.amount.data).map (fun d => (expenseMonthKey e, decValue d)))
        exps = some pairs →
      pairs = exps.map (fun e => (expenseMonthKey e, amountValD e)) := by
  intro exps
  induction exps with
  | nil =>
    intro pairs h
    rw [mapOptionList] at h
    simp at h
    simp [h.symm]
  | cons e l ih =>
    intro pairs h
    rw [mapOptionList] at h
    cases hd : pyDecimal e.amount.data with
    | none =>
      rw [hd] at h
      simp at h
    | some d =>
      rw [hd] at h
      simp only [Option.map_some'] at h
      cases hrest : mapOptionList
          (fun e => (pyDecimal e.amount.data).map (fun d => (expenseMonthKey e, decValue d)))
          l with
      | none =>
        rw [hrest] at h
        simp at h
      | some ys =>
        rw [hrest] at h
        simp only [Option.some.injEq] at h
        rw [← h, List.map_cons, ← ih ys hrest]
        have : amountValD e = decValue d := by
          rw [amountValD, hd]
        rw [this]

theorem digitCharC_isDigit (d : Nat) : isDigitC (digitCharC d) = true := by
  unfold digitCharC
  repeat' split
  all_goals decide

theorem natDigitsW_ne_nil (n : Nat) : natDigitsW n ≠ [] := by
  rw [natDigitsW]
  split
  · simp
  · simp

theorem natDigitsW_all_digit (n : Nat) : ∀ c ∈ natDigitsW n, isDigitC c = true := by
  induction n using Nat.strong_induction_on with
  | _ n ih =>
    intro c hc
    rw [natDigitsW] at hc
    split at hc
    · rw [List.mem_singleton] at hc
      subst hc
      exact digitCharC_isDigit n
    · rw [List.mem_append] at hc
      rcases hc with hc | hc
      · exact ih (n / 10) (Nat.div_lt_self (by omega) (by omega)) c hc
      · rw [List.mem_singleton] at hc
        subst hc
        exact digitCharC_isDigit (n % 10)

theorem natDigits_ne_nil (n : Nat) : natDigits n ≠ [] := by
  rw [natDigits_eq_natDigitsW]
  exact natDigitsW_ne_nil n

theorem natDigits_all_digit (n : Nat) : ∀ c ∈ natDigits n, isDigitC c = true := by
  rw [natDigits_eq_natDigitsW]
  exact natDigitsW_all_digit n

theorem padNum_head_digit (w n : Nat) :
    ∃ c rest, padNum w n = c :: rest ∧ isDigitC c = true := by
  unfold padNum
  cases hz : w - (natDigits n).length with
  | zero =>
    cases hd : natDigits n with
    | nil => exact absurd hd (natDigits_ne_nil n)
    | cons c rest =>
      refine ⟨c, rest, ?_, ?_⟩
      · show List.replicate (w - (c :: rest).length) '0' ++ (c :: rest) = c :: rest
        have hzz : w - (c :: rest).length = 0 := by
          rw [← hd]
          exact hz
        rw [hzz]
        rfl
      · exact natDigits_all_digit n c (by rw [hd]; exact List.mem_cons_self _ _)
  | succ k =>
    refine ⟨'0', List.replicate k '0' ++ natDigits n, ?_, by decide⟩
    show List.replicate (w - (natDigits n).length) '0' ++ natDigits n =
      '0' :: (List.replicate k '0' ++ natDigits n)
    rw [hz, List.replicate_succ]
    rfl

theorem fmtYM_ne_unknown (dt : PyDateTime) : fmtYM dt ≠ "unknown" := by
  unfold fmtYM
  obtain ⟨c, rest, heq, hdig⟩ := padNum_head_digit 4 dt.year
  rw [heq]
  intro hcontra
  have hdata : c :: (rest ++ '-' :: padNum 2 dt.month) = "unknown".data := by
    have := congrArg String.data hcontra
    simpa using this
  have h2 : ("unknown".data) = 'u' :: 'n' :: 'k' :: 'n' :: 'o' :: 'w' :: 'n' :: [] := rfl
  rw [h2] at hdata
  have hu : c = 'u' := (List.cons.injEq _ _ _ _).mp hdata |>.1
  rw [hu] at hdig
  exact absurd hdig (by decide)

/-- C7: whenever summary_by_month succeeds, each month key it reports maps
to exactly the sum of the values of the expenses bucketed to that month, a
key is present exactly when some expense falls in that bucket, and an
expense lands in the "unknown" bucket exactly when its stored date does
not parse. -/
theorem monthly_totals_consistent :
    ∀ (exps : List Expense) (t : List (String × ℚ)),
      monthly_totals exps = some t →
      (∀ M v, List.lookup M t = some v →
        v = ((exps.filter (fun e => expenseMonthKey e == M)).map amountValD).sum) ∧
      (∀ M, (List.lookup M t).isSome ↔ ∃ e ∈ exps, expenseMonthKey e = M) ∧
      (∀ e ∈ exps, (expenseMonthKey e = "unknown" ↔ fromiso e.date.data = none)) := by
  intro exps t h
  rw [monthly_totals] at h
  cases hp : mapOptionList
      (fun e => (pyDecimal e.amount.data).map (fun d => (expenseMonthKey e, decValue d)))
      exps with
  | none =>
    rw [hp] at h
    simp at h
  | some pairs =>
    rw [hp] at h
    simp only [Option.some.injEq] at h
    have hpairs : pairs = exps.map (fun e => (expenseMonthKey e, amountValD e)) :=
      mapOptionList_pairs exps pairs hp
    have hlook : ∀ M, List.lookup M t =
        if pairs.any (fun p => p.1 == M) then some (keySum pairs M) else none := by
      intro M
      rw [← h, lookup_foldTotals pairs [] M]
      simp
    refine ⟨?_, ?_, ?_⟩
    · intro M v hv
      rw [hlook M] at hv
      by_cases ha : pairs.any (fun p => p.1 == M)
      · rw [if_pos ha] at hv
        have hvv := Option.some.inj hv
        rw [← hvv, hpairs, keySum_map]
      · rw [if_neg ha] at hv
        exact absurd hv (by simp)
    · intro M
      rw [hlook M]
      by_cases ha : pairs.any (fun p => p.1 == M)
      · rw [if_pos ha]
        simp only [Option.isSome_some, true_iff]
        rw [hpairs, List.any_eq_true] at ha
        rcases ha with ⟨p, hpmem, hbeq⟩
        rcases List.mem_map.mp hpmem with ⟨e, he, rfl⟩
        exact ⟨e, he, by simpa using hbeq⟩
      · rw [if_neg ha]
        simp only [Option.isSome_none, Bool.false_eq_true, false_iff]
        rintro ⟨e, he, hkey⟩
        apply ha
        rw [hpairs, List.any_eq_true]
        exact ⟨(expenseMonthKey e, amountValD e), List.mem_map.mpr ⟨e, he, rfl⟩,
          by simp [hkey]⟩
    · intro e _
      rw [expenseMonthKey]
      cases hf : fromiso e.date.data with
      | none => simp
      | some dt => simp [fmtYM_ne_unknown dt]

/-- Witness for the C7 theorem at a concrete one-expense dataset. -/
theorem monthly_totals_consistent_witness :
    monthly_totals [fixE1] = some [("2024-03", decValue ⟨false, 1250, .negSucc 1⟩)] ∧
    ((∀ M v, List.lookup M [("2024-03", decValue ⟨false, 1250, .negSucc 1⟩)] = some v →
        v = (([fixE1].filter (fun e => expenseMonthKey e == M)).map amountValD).sum) ∧
      (∀ M, (List.lookup M [("2024-03", decValue ⟨false, 1250, .negSucc 1⟩)]).isSome ↔
        ∃ e ∈ [fixE1], expenseMonthKey e = M) ∧
      (∀ e ∈ [fixE1], (expenseMonthKey e = "unknown" ↔ fromiso e.date.data = none))) := by
  have hd : pyDecimal fixE1.amount.data = some ⟨false, 1250, .negSucc 1⟩ := by decide
  have hk : expenseMonthKey fixE1 = "2024-03" := by decide
  have hm : monthly_totals [fixE1] = some [("2024-03", decValue ⟨false, 1250, .negSucc 1⟩)] := by
    rw [monthly_totals, mapOptionList, hd]
    simp only [Option.map_some', mapOptionList, hk]
    rfl
  exact ⟨hm, monthly_totals_consistent [fixE1] _ hm⟩

theorem spentIn_foldl (month : String) :
    ∀ (exps : List Expense) (acc : ℚ),
      (∀ e ∈ exps, (pyDecimal e.amount.data).isSome) →
      exps.foldl (spentStep month) acc =
        acc + ((exps.filter (fun e => inMonth e month)).map amountValD).sum := by
  intro exps
  induction exps with
  | nil =>
    intro acc _
    simp
  | cons e l ih =>
    intro acc hA
    rw [List.foldl_cons, ih (spentStep month acc e)
      (fun x hx => hA x (List.mem_cons_of_mem _ hx))]
    have hstep : spentStep month acc e =
        acc + (if inMonth e month then amountValD e else 0) := by
      rw [spentStep, inMonth]
      cases hf : fromiso e.date.data with
      | none => simp
      | some dt =>
        by_cases hm : fmtYM dt = month
        · cases hd : pyDecimal e.amount.data with
          | none =>
            have := hA e (List.mem_cons_self _ _)
            rw [hd] at this
            simp at this
          | some d => simp [hm, amountValD, hd]
        · simp [hm]
    rw [hstep, List.filter_cons]
    by_cases hin : inMonth e month = true
    · simp only [hin, if_true, List.map_cons, List.sum_cons]
      ring
    · simp only [hin, Bool.false_eq_true, if_false]
      ring

/-- C9: budget_status computes spent as the exact sum over the expenses
whose stored date falls in the queried month (for datasets whose amounts
all parse), reports remaining = budget - spent exactly when a budget is
set, flags exceeded exactly when remaining < 0; concretely, with 12.50 and
7.00 in 2024-03, status gives spent 19.50 with no budget and not exceeded,
and after setting the 15.00 budget it gives remaining -4.50, exceeded. -/
theorem budget_status_correct :
    (∀ (data : Dataset) (month : String),
      (∀ e ∈ data.expenses, (pyDecimal e.amount.data).isSome) →
      spentIn data.expenses month =
        ((data.expenses.filter (fun e => inMonth e month)).map amountValD).sum ∧
      (∀ st, budget_status data month = some st →
        st.spent = spentIn data.expenses month ∧
        (st.budget = none → st.remaining = none ∧ st.exceeded = false) ∧
        (∀ b, st.budget = some b →
          st.remaining = some (b - st.spent) ∧
          (st.exceeded = true ↔ b - st.spent < 0)))) ∧
    budget_status fixDS "2024-03" = some ⟨(39 : ℚ)/2, none, none, false⟩ ∧
    set_budget fixDS "2024-03" "15.00" = some fixDSB ∧
    budget_status fixDSB "2024-03" =
      some ⟨(39 : ℚ)/2, some 15, some (-(9 : ℚ)/2), true⟩ := by
  have hsp : spentIn [fixE1, fixE2] "2024-03" = (39 : ℚ)/2 := by
    have hs1 : ∀ x : ℚ, spentStep "2024-03" x fixE1 =
        x + decValue ⟨false, 1250, .negSucc 1⟩ := by
      intro x
      simp only [spentStep,
        show fromiso fixE1.date.data = some ⟨2024, 3, 1, 0, 0, 0, 0⟩ from by decide,
        show pyDecimal fixE1.amount.data = some (⟨false, 1250, .negSucc 1⟩ : Dec) from by
          decide,
        if_pos (show fmtYM (⟨2024, 3, 1, 0, 0, 0, 0⟩ : PyDateTime) = "2024-03" from by
          decide)]
    have hs2 : ∀ x : ℚ, spentStep "2024-03" x fixE2 =
        x + decValue ⟨false, 700, .negSucc 1⟩ := by
      intro x
      simp only [spentStep,
        show fromiso fixE2.date.data = some ⟨2024, 3, 15, 0, 0, 0, 0⟩ from by decide,
        show pyDecimal fixE2.amount.data = some (⟨false, 700, .negSucc 1⟩ : Dec) from by
          decide,
        if_pos (show fmtYM (⟨2024, 3, 15, 0, 0, 0, 0⟩ : PyDateTime) = "2024-03" from by
          decide)]
    rw [spentIn, List.foldl_cons, List.foldl_cons, List.foldl_nil, hs1, hs2]
    simp only [decValue]
    norm_num
  refine ⟨?_, ?_, ?_, ?_⟩
  · intro data month hA
    constructor
    · rw [spentIn, spentIn_foldl month data.expenses 0 hA, zero_add]
    · intro st hst
      rw [budget_status] at hst
      cases hl : List.lookup month data.budgets with
      | none =>
        simp only [hl] at hst
        simp only [Option.some.injEq] at hst
        rw [← hst]
        refine ⟨rfl, fun _ => ⟨rfl, rfl⟩, ?_⟩
        intro b hb
        simp at hb
      | some bstr =>
        simp only [hl] at hst
        by_cases hbe : bstr = ""
        · rw [if_pos hbe] at hst
          simp only [Option.some.injEq] at hst
          rw [← hst]
          refine ⟨rfl, fun _ => ⟨rfl, rfl⟩, ?_⟩
          intro b hb
          simp at hb
        · rw [if_neg hbe] at hst
          cases hpd : pyDecimal bstr.data with
          | none =>
            simp only [hpd] at hst
            exact Option.noConfusion hst
          | some bd =>
            simp only [hpd] at hst
            simp only [Option.some.injEq] at hst
            rw [← hst]
            refine ⟨rfl, ?_, ?_⟩
            · intro hnone
              simp at hnone
            · intro b hb
              simp only [Option.some.injEq] at hb
              rw [← hb]
              exact ⟨rfl, by rw [decide_eq_true_eq]⟩
  · have h1 : budget_status fixDS "2024-03" =
        some ⟨spentIn fixDS.expenses "2024-03", none, none, false⟩ := rfl
    rw [h1]
    have h2 : fixDS.expenses = [fixE1, fixE2] := rfl
    rw [h2, hsp]
  · decide
  · have hb : pyDecimal ("15.00" : String).data = some (⟨false, 1500, .negSucc 1⟩ : Dec) := by
      decide
    have h1 : budget_status fixDSB "2024-03" =
        some ⟨spentIn fixDSB.expenses "2024-03",
          some (decValue ⟨false, 1500, .negSucc 1⟩),
          some (decValue ⟨false, 1500, .negSucc 1⟩ - spentIn fixDSB.expenses "2024-03"),
          decide (decValue ⟨false, 1500, .negSucc 1⟩ -
            spentIn fixDSB.expenses "2024-03" < 0)⟩ := rfl
    rw [h1]
    have h2 : fixDSB.expenses = [fixE1, fixE2] := rfl
    rw [h2, hsp]
    have hbv : decValue ⟨false, 1500, .negSucc 1⟩ = 15 := by
      simp only [decValue]
      norm_num
    rw [hbv]
    simp only [Option.some.injEq, BudgetStatus.mk.injEq]
    refine ⟨by trivial, by trivial, by norm_num, ?_⟩
    rw [decide_eq_true_eq]
    norm_num

/-- Witness for the general part of the C9 theorem at the scenario data. -/
theorem budget_status_correct_witness :
    (∀ e ∈ fixDS.expenses, (pyDecimal e.amount.data).isSome) ∧
    (spentIn fixDS.expenses "2024-03" =
        ((fixDS.expenses.filter (fun e => inMonth e "2024-03")).map amountValD).sum ∧
      (∀ st, budget_status fixDS "2024-03" = some st →
        st.spent = spentIn fixDS.expenses "2024-03" ∧
        (st.budget = none → st.remaining = none ∧ st.exceeded = false) ∧
        (∀ b, st.budget = some b →
          st.remaining = some (b - st.spent) ∧
          (st.exceeded = true ↔ b - st.spent < 0)))) :=
  ⟨by decide, budget_status_correct.1 fixDS "2024-03" (by decide)⟩

theorem foldlDigits_natDigitsW (n : Nat) :
    ∀ a : Nat, (natDigitsW n).foldl (fun a c => 10 * a + digitVal c) a =
      a * 10 ^ (natDigitsW n).length + n := by
  induction n using Nat.strong_induction_on with
  | _ n ih =>
    intro a
    rw [natDigitsW]
    by_cases h10 : n < 10
    · rw [dif_pos h10]
      have hdv : digitVal (digitCharC n) = n := by
        unfold digitCharC digitVal
        interval_cases n <;> decide
      simp [List.foldl, hdv]
      ring
    · rw [dif_neg h10]
      rw [List.foldl_append]
      rw [ih (n / 10) (Nat.div_lt_self (by omega) (by omega)) a]
      have hdv : digitVal (digitCharC (n % 10)) = n % 10 := by
        have : n % 10 < 10 := Nat.mod_lt n (by omega)
        unfold digitCharC digitVal
        interval_cases hh : n % 10 <;> decide
      simp only [List.foldl_cons, List.foldl_nil, hdv, List.length_append,
        List.length_singleton]
      set L := (natDigitsW (n / 10)).length with hL
      rw [pow_succ]
      have hmod : 10 * (n / 10) + n % 10 = n := Nat.div_add_mod n 10
      calc 10 * (a * 10 ^ L + n / 10) + n % 10
          = a * (10 ^ L * 10) + (10 * (n / 10) + n % 10) := by ring
        _ = a * (10 ^ L * 10) + n := by rw [hmod]

theorem parseNatDigits_natDigits (n : Nat) : parseNatDigits (natDigits n) = n := by
  rw [parseNatDigits, natDigits_eq_natDigitsW, foldlDigits_natDigitsW]
  ring

theorem parseNatDigits_cons_zero (l : List Char) :
    parseNatDigits ('0' :: l) = parseNatDigits l := by
  rw [parseNatDigits, parseNatDigits, List.foldl_cons]
  have : (10 * 0 + digitVal '0') = 0 := by decide
  rw [this]

theorem parseNatDigits_replicate_zero (k : Nat) (l : List Char) :
    parseNatDigits (List.replicate k '0' ++ l) = parseNatDigits l := by
  induction k with
  | zero => simp
  | succ k ih =>
    rw [List.replicate_succ, List.cons_append, parseNatDigits_cons_zero, ih]

theorem takeWhile_all_append (p : Char → Bool) (l r : List Char)
    (h : ∀ c ∈ l, p c = true) :
    (l ++ r).takeWhile p = l ++ r.takeWhile p := by
  induction l with
  | nil => simp
  | cons c t ih =>
    rw [List.cons_append, List.takeWhile_cons, h c (List.mem_cons_self _ _)]
    simp only [if_true]
    rw [ih (fun x hx => h x (List.mem_cons_of_mem _ hx))]
    rfl

theorem dropWhile_all_append (p : Char → Bool) (l r : List Char)
    (h : ∀ c ∈ l, p c = true) :
    (l ++ r).dropWhile p = r.dropWhile p := by
  induction l with
  | nil => simp
  | cons c t ih =>
    rw [List.cons_append, List.dropWhile_cons, h c (List.mem_cons_self _ _)]
    simp only [if_true]
    exact ih (fun x hx => h x (List.mem_cons_of_mem _ hx))

theorem takeWhile_head_false (p : Char → Bool) (c : Char) (t : List Char)
    (h : p c = false) : (c :: t).takeWhile p = [] := by
  rw [List.takeWhile_cons, h]
  rfl

theorem dropWhile_head_false (p : Char → Bool) (c : Char) (t : List Char)
    (h : p c = false) : (c :: t).dropWhile p = c :: t := by
  rw [List.dropWhile_cons, h]
  rfl

theorem digit_ne_of_not_digit (c x : Char) (h : isDigitC c = true)
    (hx : isDigitC x = false) : c ≠ x := by
  intro he
  rw [he, hx] at h
  exact Bool.noConfusion h

theorem takeWhile_stop (p : Char → Bool) (rest : List Char)
    (h : rest = [] ∨ ∃ c t, rest = c :: t ∧ p c = false) :
    rest.takeWhile p = [] := by
  rcases h with rfl | ⟨c, t, rfl, hc⟩
  · rfl
  · exact takeWhile_head_false p c t hc

theorem dropWhile_stop (p : Char → Bool) (rest : List Char)
    (h : rest = [] ∨ ∃ c t, rest = c :: t ∧ p c = false) :
    rest.dropWhile p = rest := by
  rcases h with rfl | ⟨c, t, rfl, hc⟩
  · rfl
  · exact dropWhile_head_false p c t hc

theorem mantissaStop_elim (rest : List Char) (h : mantissaStop rest) :
    rest = [] ∨ ∃ c t, rest = c :: t ∧ isDigitC c = false :=
  h.imp id (fun ⟨c, t, he, hd, _⟩ => ⟨c, t, he, hd⟩)

theorem parseMantissa_digits (ds rest : List Char) (hne : ds ≠ [])
    (hall : ∀ c ∈ ds, isDigitC c = true) (hrest : mantissaStop rest) :
    parseMantissa (ds ++ rest) = some (parseNatDigits ds, 0, rest) := by
  rw [parseMantissa.eq_def]
  simp only
  rw [takeWhile_all_append isDigitC ds rest hall,
    dropWhile_all_append isDigitC ds rest hall,
    takeWhile_stop isDigitC rest (mantissaStop_elim rest hrest),
    dropWhile_stop isDigitC rest (mantissaStop_elim rest hrest),
    List.append_nil]
  rcases hrest with rfl | ⟨c, t, rfl, hcd, hcp⟩
  · rw [if_neg hne]
  · split
    · next r2 heq =>
      rw [List.cons.injEq] at heq
      exact absurd heq.1 hcp
    · rw [if_neg hne]

theorem parseMantissa_point (ds1 ds2 rest : List Char)
    (hall1 : ∀ c ∈ ds1, isDigitC c = true) (hall2 : ∀ c ∈ ds2, isDigitC c = true)
    (hne : ¬(ds1 = [] ∧ ds2 = [])) (hrest : mantissaStop rest) :
    parseMantissa (ds1 ++ '.' :: (ds2 ++ rest)) =
      some (parseNatDigits (ds1 ++ ds2), ds2.length, rest) := by
  rw [parseMantissa.eq_def]
  simp only
  have hdot : isDigitC '.' = false := by decide
  rw [takeWhile_all_append isDigitC ds1 ('.' :: (ds2 ++ rest)) hall1,
    dropWhile_all_append isDigitC ds1 ('.' :: (ds2 ++ rest)) hall1,
    takeWhile_head_false isDigitC '.' _ hdot,
    dropWhile_head_false isDigitC '.' _ hdot,
    List.append_nil]
  split
  · next r2 heq =>
    rw [List.cons.injEq] at heq
    have hr2 : r2 = ds2 ++ rest := heq.2.symm
    subst hr2
    rw [takeWhile_all_append isDigitC ds2 rest hall2,
      dropWhile_all_append isDigitC ds2 rest hall2,
      takeWhile_stop isDigitC rest (mantissaStop_elim rest hrest),
      dropWhile_stop isDigitC rest (mantissaStop_elim rest hrest),
      List.append_nil]
    rw [if_neg hne]
  · next hcontra =>
    exact absurd rfl (hcontra (ds2 ++ rest))

theorem splitSign_not_sign (c : Char) (l : List Char) (h1 : c ≠ '-') (h2 : c ≠ '+') :
    splitSign (c :: l) = (false, c :: l) := by
  rw [splitSign.eq_def]
  split
  · next rest heq =>
    rw [List.cons.injEq] at heq
    exact absurd heq.1 h1
  · next rest heq =>
    rw [List.cons.injEq] at heq
    exact absurd heq.1 h2
  · rfl

theorem expSignDigits_all (k : Int) :
    ∀ c ∈ (expSignDigits k).tail, isDigitC c = true := by
  rw [expSignDigits]
  split <;> exact fun c hc => natDigits_all_digit _ c hc

theorem takeWhile_all (p : Char → Bool) (l : List Char) (h : ∀ c ∈ l, p c = true) :
    l.takeWhile p = l := by
  have := takeWhile_all_append p l [] h
  simpa using this

theorem dropWhile_all (p : Char → Bool) (l : List Char) (h : ∀ c ∈ l, p c = true) :
    l.dropWhile p = [] := by
  have := dropWhile_all_append p l [] h
  simpa using this

theorem parseExpPart_E (k : Int) : parseExpPart ('E' :: expSignDigits k) = some k := by
  rw [parseExpPart]
  rw [if_pos (Or.inr rfl)]
  rw [expSignDigits]
  have hcond : ¬(natDigits k.natAbs = [] ∨ (([] : List Char)) ≠ []) := by
    simp [natDigits_ne_nil]
  by_cases hk : k < 0
  · rw [if_pos hk]
    rw [parseExpTail]
    rw [show splitSign ('-' :: natDigits k.natAbs) = (true, natDigits k.natAbs) from rfl]
    simp only
    rw [takeWhile_all isDigitC _ (natDigits_all_digit _),
      dropWhile_all isDigitC _ (natDigits_all_digit _)]
    rw [if_neg hcond]
    simp only [if_true, Option.some.injEq]
    rw [parseNatDigits_natDigits]
    omega
  · rw [if_neg hk]
    rw [parseExpTail]
    rw [show splitSign ('+' :: natDigits k.natAbs) = (false, natDigits k.natAbs) from rfl]
    simp only
    rw [takeWhile_all isDigitC _ (natDigits_all_digit _),
      dropWhile_all isDigitC _ (natDigits_all_digit _)]
    rw [if_neg hcond]
    simp only [Bool.false_eq_true, if_false, Option.some.injEq]
    rw [parseNatDigits_natDigits]
    omega

theorem parseDec_cons (ng : Bool) (c : Char) (t : List Char)
    (hc1 : c ≠ '-') (hc2 : c ≠ '+') :
    parseDec ((if ng then ['-'] else []) ++ c :: t) =
      match parseMantissa (c :: t) with
      | none => none
      | some (co, fl, rest) =>
        match parseExpPart rest with
        | none => none
        | some ev => some ⟨ng, co, ev - (fl : Int)⟩ := by
  cases ng
  · simp only [Bool.false_eq_true, if_false, List.nil_append]
    rw [parseDec]
    rw [splitSign_not_sign c t hc1 hc2]
  · simp only [if_true]
    rw [show (['-'] ++ c :: t : List Char) = '-' :: c :: t from rfl]
    rw [parseDec]
    rw [show splitSign ('-' :: c :: t) = (true, c :: t) from rfl]

theorem parseDec_build (ng : Bool) (c : Char) (t : List Char) (co fl : Nat)
    (ev : Int) (rest : List Char) (hc1 : c ≠ '-') (hc2 : c ≠ '+')
    (hm : parseMantissa (c :: t) = some (co, fl, rest))
    (he : parseExpPart rest = some ev) :
    parseDec ((if ng then ['-'] else []) ++ c :: t) = some ⟨ng, co, ev - (fl : Int)⟩ := by
  rw [parseDec_cons ng c t hc1 hc2, hm]
  simp only
  rw [he]

theorem parseMantissa_digits_nil (ds : List Char) (hne : ds ≠ [])
    (hall : ∀ c ∈ ds, isDigitC c = true) :
    parseMantissa ds = some (parseNatDigits ds, 0, []) := by
  have := parseMantissa_digits ds [] hne hall (Or.inl rfl)
  simpa using this

theorem parseDec_decToChars (d : Dec) : parseDec (decToChars d) = some d := by
  obtain ⟨ng, co, ex⟩ := d
  have hds : natDigits co ≠ [] := natDigits_ne_nil co
  have hall : ∀ c ∈ natDigits co, isDigitC c = true := natDigits_all_digit co
  have hval : parseNatDigits (natDigits co) = co := parseNatDigits_natDigits co
  obtain ⟨c0, t0, hds_eq⟩ : ∃ c0 t0, natDigits co = c0 :: t0 := by
    cases hh : natDigits co with
    | nil => exact absurd hh hds
    | cons a b => exact ⟨a, b, rfl⟩
  have hc0 : isDigitC c0 = true := hall c0 (by rw [hds_eq]; exact List.mem_cons_self _ _)
  have hc0m : c0 ≠ '-' := digit_ne_of_not_digit c0 '-' hc0 (by decide)
  have hc0p : c0 ≠ '+' := digit_ne_of_not_digit c0 '+' hc0 (by decide)
  have ht0 : ∀ c ∈ t0, isDigitC c = true := fun c hc =>
    hall c (by rw [hds_eq]; exact List.mem_cons_of_mem _ hc)
  have hlen2 : (natDigits co).length = t0.length + 1 := by rw [hds_eq]; rfl
  simp only [decToChars]
  by_cases h1 : ex ≤ 0 ∧ (-6 : Int) < ex + ((natDigits co).length : Int)
  · rw [if_pos h1]
    by_cases h2 : ex = 0
    · rw [if_pos h2]
      subst h2
      rw [hds_eq]
      rw [parseDec_build ng c0 t0 (parseNatDigits (c0 :: t0)) 0 0 [] hc0m hc0p
        (parseMantissa_digits_nil (c0 :: t0) (by simp) (hds_eq ▸ hall)) rfl]
      rw [← hds_eq, hval]
      norm_num
    · rw [if_neg h2]
      by_cases h3 : ex + ((natDigits co).length : Int) ≤ 0
      · rw [if_pos h3]
        set m := (-(ex + ((natDigits co).length : Int))).toNat with hm_def
        have hm : parseMantissa ('0' :: '.' :: (List.replicate m '0' ++ natDigits co)) =
            some (parseNatDigits ('0' :: (List.replicate m '0' ++ natDigits co)),
              (List.replicate m '0' ++ natDigits co).length, []) := by
          have hp := parseMantissa_point ['0'] (List.replicate m '0' ++ natDigits co) []
            (by
              intro c hc
              rw [List.mem_singleton] at hc
              subst hc
              decide)
            (by
              intro c hc
              rcases List.mem_append.mp hc with hc | hc
              · rw [List.eq_of_mem_replicate hc]
                decide
              · exact hall c hc)
            (by simp) (Or.inl rfl)
          simpa using hp
        rw [parseDec_build ng '0' ('.' :: (List.replicate m '0' ++ natDigits co)) _ _ 0 []
          (by decide) (by decide) hm rfl]
        simp only [Option.some.injEq, Dec.mk.injEq]
        refine ⟨by trivial, ?_, ?_⟩
        · rw [parseNatDigits_cons_zero, parseNatDigits_replicate_zero, hval]
        · rw [List.length_append, List.length_replicate]
          have hmi : ((m : Nat) : Int) = -(ex + ((natDigits co).length : Int)) := by
            rw [hm_def]
            exact Int.toNat_of_nonneg (by omega)
          omega
      · rw [if_neg h3]
        set dp := (ex + ((natDigits co).length : Int)).toNat with hdp_def
        have hdpi : ((dp : Nat) : Int) = ex + ((natDigits co).length : Int) := by
          rw [hdp_def]
          exact Int.toNat_of_nonneg (by omega)
        obtain ⟨dp', hdp'⟩ : ∃ dp', dp = dp' + 1 := ⟨dp - 1, by omega⟩
        rw [hds_eq, hdp']
        rw [List.take_succ_cons, List.drop_succ_cons]
        have hm : parseMantissa (c0 :: (List.take dp' t0 ++ '.' :: List.drop dp' t0)) =
            some (parseNatDigits (c0 :: (List.take dp' t0 ++ List.drop dp' t0)),
              (List.drop dp' t0).length, []) := by
          have hp := parseMantissa_point (c0 :: List.take dp' t0) (List.drop dp' t0) []
            (by
              intro c hc
              rcases List.mem_cons.mp hc with hc | hc
              · subst hc
                exact hc0
              · exact ht0 c (List.take_subset dp' t0 hc))
            (fun c hc => ht0 c (List.drop_subset dp' t0 hc))
            (by simp) (Or.inl rfl)
          simpa using hp
        rw [List.append_assoc, List.cons_append]
        rw [parseDec_build ng c0 (List.take dp' t0 ++ '.' :: List.drop dp' t0) _ _ 0 []
          hc0m hc0p hm rfl]
        simp only [Option.some.injEq, Dec.mk.injEq]
        refine ⟨by trivial, ?_, ?_⟩
        · rw [List.take_append_drop, ← hds_eq, hval]
        · rw [List.length_drop]
          omega
  · rw [if_neg h1]
    by_cases h4 : (natDigits co).length ≤ 1
    · rw [if_pos h4]
      have ht0nil : t0 = [] := by
        have : t0.length = 0 := by omega
        exact List.eq_nil_of_length_eq_zero this
      have hlen1 : ((natDigits co).length : Int) = 1 := by
        rw [hlen2, ht0nil]
        rfl
      rw [hlen1, hds_eq, ht0nil]
      have hadj : ex + 1 - 1 = ex := by ring
      rw [hadj]
      rw [List.append_assoc]
      rw [show ([c0] ++ 'E' :: expSignDigits ex : List Char) =
        c0 :: ('E' :: expSignDigits ex) from rfl]
      have hm : parseMantissa (c0 :: ('E' :: expSignDigits ex)) =
          some (parseNatDigits [c0], 0, 'E' :: expSignDigits ex) := by
        have hp := parseMantissa_digits [c0] ('E' :: expSignDigits ex) (by simp)
          (by
            intro c hc
            rw [List.mem_singleton] at hc
            subst hc
            exact hc0)
          (Or.inr ⟨'E', expSignDigits ex, rfl, by decide, by decide⟩)
        simpa using hp
      rw [parseDec_build ng c0 ('E' :: expSignDigits ex) (parseNatDigits [c0]) 0 ex
        ('E' :: expSignDigits ex) hc0m hc0p hm (parseExpPart_E ex)]
      have hone : natDigits co = [c0] := by rw [hds_eq, ht0nil]
      rw [← hone, hval]
      norm_num
    · rw [if_neg h4]
      rw [hds_eq]
      set adj := ex + (((c0 :: t0).length : Nat) : Int) - 1 with hadj_def
      have htake : List.take 1 (c0 :: t0) = [c0] := rfl
      have hdrop : List.drop 1 (c0 :: t0) = t0 := rfl
      rw [htake, hdrop]
      rw [List.append_assoc]
      rw [show ([c0] ++ '.' :: t0) ++ 'E' :: expSignDigits adj =
        c0 :: ('.' :: (t0 ++ 'E' :: expSignDigits adj)) from by simp]
      have hm : parseMantissa (c0 :: ('.' :: (t0 ++ 'E' :: expSignDigits adj))) =
          some (parseNatDigits ([c0] ++ t0), t0.length, 'E' :: expSignDigits adj) := by
        have hp := parseMantissa_point [c0] t0 ('E' :: expSignDigits adj)
          (by
            intro c hc
            rw [List.mem_singleton] at hc
            subst hc
            exact hc0)
          ht0
          (by simp) (Or.inr ⟨'E', expSignDigits adj, rfl, by decide, by decide⟩)
        simpa using hp
      rw [parseDec_build ng c0 ('.' :: (t0 ++ 'E' :: expSignDigits adj))
        (parseNatDigits ([c0] ++ t0)) t0.length adj ('E' :: expSignDigits adj)
        hc0m hc0p hm (parseExpPart_E adj)]
      simp only [Option.some.injEq, Dec.mk.injEq]
      refine ⟨by trivial, ?_, ?_⟩
      · rw [show ([c0] ++ t0 : List Char) = c0 :: t0 from rfl, ← hds_eq, hval]
      · have hlc : (((c0 :: t0).length : Nat) : Int) = (t0.length : Int) + 1 := by
          simp
        omega

theorem dropWhile_all_false (p : Char → Bool) (l : List Char)
    (h : ∀ c ∈ l, p c = false) : l.dropWhile p = l := by
  cases l with
  | nil => rfl
  | cons c t => exact dropWhile_head_false p c t (h c (List.mem_cons_self _ _))

theorem stripChars_of_no_space (l : List Char) (h : ∀ c ∈ l, isSpaceC c = false) :
    stripChars l = l := by
  rw [stripChars, dropL, dropWhile_all_false isSpaceC l h, dropR,
    dropWhile_all_false isSpaceC l.reverse (fun c hc => h c (List.mem_reverse.mp hc)),
    List.reverse_reverse]

theorem removeChar_of_all_ne (x : Char) (l : List Char) (h : ∀ c ∈ l, c ≠ x) :
    removeChar x l = l := by
  induction l with
  | nil => rfl
  | cons c t ih =>
    rw [removeChar, List.filter_cons]
    have hc : (decide (c ≠ x)) = true := decide_eq_true (h c (List.mem_cons_self _ _))
    rw [hc]
    simp only [if_true]
    rw [← removeChar, ih (fun y hy => h y (List.mem_cons_of_mem _ hy))]

theorem mem_sgn (b : Bool) (c : Char)
    (h : c ∈ (if b = true then ['-'] else ([] : List Char))) : c = '-' := by
  cases b
  · simp at h
  · simp at h
    exact h

theorem mem_expSignDigits (k : Int) (c : Char) (h : c ∈ expSignDigits k) :
    c = '-' ∨ c = '+' ∨ isDigitC c = true := by
  rw [expSignDigits] at h
  split at h
  · rcases List.mem_cons.mp h with rfl | h
    · exact Or.inl rfl
    · exact Or.inr (Or.inr (natDigits_all_digit _ c h))
  · rcases List.mem_cons.mp h with rfl | h
    · exact Or.inr (Or.inl rfl)
    · exact Or.inr (Or.inr (natDigits_all_digit _ c h))

theorem decToChars_chars (d : Dec) :
    ∀ c ∈ decToChars d,
      isDigitC c = true ∨ c = '-' ∨ c = '.' ∨ c = 'E' ∨ c = '+' := by
  intro c hc
  simp only [decToChars] at hc
  split at hc
  · split at hc
    · rcases List.mem_append.mp hc with hc | hc
      · exact Or.inr (Or.inl (mem_sgn _ c hc))
      · exact Or.inl (natDigits_all_digit _ c hc)
    · split at hc
      · rcases List.mem_append.mp hc with hc | hc
        · exact Or.inr (Or.inl (mem_sgn _ c hc))
        · rcases List.mem_cons.mp hc with rfl | hc
          · exact Or.inl (by decide)
          · rcases List.mem_cons.mp hc with rfl | hc
            · exact Or.inr (Or.inr (Or.inl rfl))
            · rcases List.mem_append.mp hc with hc | hc
              · rw [List.eq_of_mem_replicate hc]
                exact Or.inl (by decide)
              · exact Or.inl (natDigits_all_digit _ c hc)
      · rcases List.mem_append.mp hc with hc | hc
        · rcases List.mem_append.mp hc with hc | hc
          · exact Or.inr (Or.inl (mem_sgn _ c hc))
          · exact Or.inl (natDigits_all_digit _ c (List.take_subset _ _ hc))
        · rcases List.mem_cons.mp hc with rfl | hc
          · exact Or.inr (Or.inr (Or.inl rfl))
          · exact Or.inl (natDigits_all_digit _ c (List.drop_subset _ _ hc))
  · rcases List.mem_append.mp hc with hc | hc
    · rcases List.mem_append.mp hc with hc | hc
      · exact Or.inr (Or.inl (mem_sgn _ c hc))
      · split at hc
        · exact Or.inl (natDigits_all_digit _ c hc)
        · rcases List.mem_append.mp hc with hc | hc
          · exact Or.inl (natDigits_all_digit _ c (List.take_subset _ _ hc))
          · rcases List.mem_cons.mp hc with rfl | hc
            · exact Or.inr (Or.inr (Or.inl rfl))
            · exact Or.inl (natDigits_all_digit _ c (List.drop_subset _ _ hc))
    · rcases List.mem_cons.mp hc with rfl | hc
      · exact Or.inr (Or.inr (Or.inr (Or.inl rfl)))
      · rcases mem_expSignDigits _ c hc with rfl | rfl | hd
        · exact Or.inr (Or.inl rfl)
        · exact Or.inr (Or.inr (Or.inr (Or.inr rfl)))
        · exact Or.inl hd

theorem digit_not_space (c : Char) (h : isDigitC c = true) : isSpaceC c = false := by
  rw [isDigitC, decide_eq_true_eq] at h
  rw [isSpaceC, decide_eq_false_iff_not]
  omega

theorem decToChars_no_space (d : Dec) : ∀ c ∈ decToChars d, isSpaceC c = false := by
  intro c hc
  rcases decToChars_chars d c hc with hd | rfl | rfl | rfl | rfl
  · exact digit_not_space c hd
  · decide
  · decide
  · decide
  · decide

theorem decToChars_no_char (d : Dec) (x : Char) (hx : isDigitC x = false)
    (h1 : x ≠ '-') (h2 : x ≠ '.') (h3 : x ≠ 'E') (h4 : x ≠ '+') :
    removeChar x (decToChars d) = decToChars d := by
  apply removeChar_of_all_ne
  intro c hc
  rcases decToChars_chars d c hc with hd | rfl | rfl | rfl | rfl
  · exact digit_ne_of_not_digit c x hd hx
  · exact h1.symm
  · exact h2.symm
  · exact h3.symm
  · exact h4.symm

theorem decToChars_ne_nil (d : Dec) : decToChars d ≠ [] := by
  have hds := natDigits_ne_nil d.coeff
  simp only [decToChars]
  split
  · split
    · simp [hds]
    · split
      · simp
      · intro h
        rcases List.append_eq_nil.mp h with ⟨h1, h2⟩
        rcases List.append_eq_nil.mp h1 with ⟨_, _⟩
        simp at h2
  · intro h
    rcases List.append_eq_nil.mp h with ⟨_, h2⟩
    simp at h2

theorem pyDecimal_decToChars (d : Dec) : pyDecimal (decToChars d) = some d := by
  rw [pyDecimal, stripChars_of_no_space _ (decToChars_no_space d),
    decToChars_no_char d '_' (by decide) (by decide) (by decide) (by decide) (by decide)]
  exact parseDec_decToChars d

theorem normalize_amount_some (s : String) :
    normalize_amount (some s) =
      if stripChars s.data = [] then .error "Amount required"
      else
        match pyDecimal (removeChar '$' (removeChar ',' (stripChars s.data))) with
        | none => .error "Invalid amount"
        | some d => .ok (String.mk (decToChars d)) := rfl

/-- C4: whenever normalize_amount accepts a string, normalizing the result
again returns it unchanged, and the decimal denoted by the canonical output
has the same exact value as the decimal parsed from the cleaned input. -/
theorem normalize_amount_idempotent :
    ∀ (s r : String), normalize_amount (some s) = .ok r →
      normalize_amount (some r) = .ok r ∧
      ∃ d1 d2 : Dec,
        pyDecimal r.data = some d1 ∧
        pyDecimal (removeChar '$' (removeChar ',' (stripChars s.data))) = some d2 ∧
        decValue d1 = decValue d2 := by
  intro s r h
  rw [normalize_amount_some] at h
  by_cases he : stripChars s.data = []
  · rw [if_pos he] at h
    exact absurd h (by simp)
  · rw [if_neg he] at h
    cases hp : pyDecimal (removeChar '$' (removeChar ',' (stripChars s.data))) with
    | none =>
      rw [hp] at h
      exact absurd h (by simp)
    | some d =>
      rw [hp] at h
      simp only [Except.ok.injEq] at h
      have hr : r = String.mk (decToChars d) := h.symm
      subst hr
      have hdata : (String.mk (decToChars d)).data = decToChars d := rfl
      have hcanon : pyDecimal (decToChars d) = some d := pyDecimal_decToChars d
      constructor
      · rw [normalize_amount_some, hdata, stripChars_of_no_space _ (decToChars_no_space d)]
        rw [if_neg (decToChars_ne_nil d)]
        rw [decToChars_no_char d ',' (by decide) (by decide) (by decide) (by decide)
          (by decide)]
        rw [decToChars_no_char d '$' (by decide) (by decide) (by decide) (by decide)
          (by decide)]
        rw [hcanon]
      · refine ⟨d, d, ?_, rfl, rfl⟩
        rw [hdata, hcanon]

/-- Witness for the C4 theorem at a concrete thousands-separated amount. -/
theorem normalize_amount_idempotent_witness :
    normalize_amount (some "1,234.50") = .ok "1234.50" ∧
    (normalize_amount (some "1234.50") = .ok "1234.50" ∧
      ∃ d1 d2 : Dec,
        pyDecimal ("1234.50" : String).data = some d1 ∧
        pyDecimal (removeChar '$' (removeChar ','
          (stripChars ("1,234.50" : String).data))) = some d2 ∧
        decValue d1 = decValue d2) :=
  ⟨by decide, normalize_amount_idempotent "1,234.50" "1234.50" (by decide)⟩

/-- C5: normalize_amount fails exactly on missing input, on input that is
empty after stripping, or on content that the decimal parser rejects after
the comma/dollar cleaning; every accepted input yields the canonical string
of the parsed decimal, which parses back to exactly that decimal. -/
theorem normalize_amount_error_iff :
    (∃ m, normalize_amount none = .error m) ∧
    ∀ s : String,
      ((∃ m, normalize_amount (some s) = .error m) ↔
        (stripChars s.data = [] ∨
          pyDecimal (removeChar '$' (removeChar ',' (stripChars s.data))) = none)) ∧
      (∀ r, normalize_amount (some s) = .ok r →
        ∃ d, pyDecimal (removeChar '$' (removeChar ',' (stripChars s.data))) = some d ∧
          r = String.mk (decToChars d) ∧ pyDecimal r.data = some d) := by
  refine ⟨⟨"Amount required", rfl⟩, ?_⟩
  intro s
  constructor
  · rw [normalize_amount_some]
    by_cases he : stripChars s.data = []
    · rw [if_pos he]
      simp [he]
    · rw [if_neg he]
      cases hp : pyDecimal (removeChar '$' (removeChar ',' (stripChars s.data))) with
      | none => simp [he]
      | some d => simp [he]
  · intro r h
    rw [normalize_amount_some] at h
    by_cases he : stripChars s.data = []
    · rw [if_pos he] at h
      exact absurd h (by simp)
    · rw [if_neg he] at h
      cases hp : pyDecimal (removeChar '$' (removeChar ',' (stripChars s.data))) with
      | none =>
        rw [hp] at h
        simp at h
      | some d =>
        rw [hp] at h
        simp only [Except.ok.injEq] at h
        refine ⟨d, rfl, h.symm, ?_⟩
        rw [← h]
        exact pyDecimal_decToChars d

/-- Witness for the C5 theorem's success clause at a concrete input. -/
theorem normalize_amount_error_iff_witness :
    normalize_amount (some "$5") = .ok "5" ∧
    (∃ d, pyDecimal (removeChar '$' (removeChar ','
        (stripChars ("$5" : String).data))) = some d ∧
      ("5" : String) = String.mk (decToChars d) ∧
      pyDecimal ("5" : String).data = some d) :=
  ⟨by decide, (normalize_amount_error_iff.2 "$5").2 "5" (by decide)⟩

theorem data_mk (l : List Char) : (String.mk l).data = l := rfl

theorem bool_eq_false {b : Bool} (h : ¬b = true) : b = false := by
  cases b
  · rfl
  · exact absurd rfl h

theorem dropL_append_ne (p : Char → Bool) (u v : List Char) (h : dropL p u ≠ []) :
    dropL p (u ++ v) = dropL p u ++ v := by
  simp only [dropL] at h ⊢
  induction u with
  | nil => exact absurd rfl h
  | cons a u' ih =>
    by_cases ha : p a = true
    · have h' : u'.dropWhile p ≠ [] := by
        rw [List.dropWhile_cons, ha] at h
        simpa using h
      rw [List.cons_append, List.dropWhile_cons, ha, List.dropWhile_cons, ha]
      simp only [if_true]
      exact ih h'
    · have haf : p a = false := bool_eq_false ha
      rw [List.cons_append, dropWhile_head_false p a _ haf,
        dropWhile_head_false p a _ haf, List.cons_append]

theorem all_of_dropL_nil (p : Char → Bool) (u : List Char) (h : dropL p u = []) :
    ∀ c ∈ u, p c = true := by
  simp only [dropL] at h
  induction u with
  | nil => simp
  | cons a u' ih =>
    intro c hc
    by_cases ha : p a = true
    · rw [List.dropWhile_cons, ha] at h
      simp only [if_true] at h
      rcases List.mem_cons.mp hc with rfl | hc
      · exact ha
      · exact ih h c hc
    · have haf : p a = false := bool_eq_false ha
      rw [dropWhile_head_false p a _ haf] at h
      exact absurd h (by simp)

theorem dropR_cons_of_ne (p : Char → Bool) (c : Char) (z : List Char)
    (h : dropL p z.reverse ≠ []) : dropR p (c :: z) = c :: dropR p z := by
  simp only [dropR, List.reverse_cons]
  rw [show (z.reverse ++ [c]).dropWhile p = dropL p (z.reverse ++ [c]) from rfl,
    dropL_append_ne p z.reverse [c] h]
  simp [dropL]

theorem dropR_cons_of_not (p : Char → Bool) (c : Char) (z : List Char)
    (h : p c = false) : dropR p (c :: z) = c :: dropR p z := by
  by_cases hz : dropL p z.reverse = []
  · have hall := all_of_dropL_nil p z.reverse hz
    simp only [dropR, List.reverse_cons]
    rw [dropWhile_all_append p z.reverse [c] hall, dropWhile_head_false p c [] h]
    simp only [dropL] at hz
    rw [hz]
    rfl
  · exact dropR_cons_of_ne p c z hz

theorem dropL_dropR_comm (p : Char → Bool) (z : List Char) :
    dropL p (dropR p z) = dropR p (dropL p z) := by
  induction z with
  | nil => rfl
  | cons c z' ih =>
    by_cases hc : p c = true
    · have hL : dropL p (c :: z') = dropL p z' := by
        simp only [dropL, List.dropWhile_cons, hc, if_true]
      by_cases hz : dropL p z'.reverse = []
      · have hall : ∀ x ∈ z'.reverse, p x = true := all_of_dropL_nil p z'.reverse hz
        have hallz : ∀ x ∈ z', p x = true := fun x hx =>
          hall x (List.mem_reverse.mpr hx)
        have hgr : dropR p (c :: z') = [] := by
          simp only [dropR, List.reverse_cons]
          rw [dropWhile_all_append p z'.reverse [c] hall, List.dropWhile_cons, hc]
          simp
        have hgl : dropL p z' = [] := dropWhile_all p z' hallz
        rw [hgr, hL, hgl]
        rfl
      · rw [dropR_cons_of_ne p c z' hz, hL]
        have hstep : dropL p (c :: dropR p z') = dropL p (dropR p z') := by
          simp only [dropL, List.dropWhile_cons, hc, if_true]
        rw [hstep, ih]
    · have hcf : p c = false := bool_eq_false hc
      rw [dropR_cons_of_not p c z' hcf]
      have h1 : dropL p (c :: dropR p z') = c :: dropR p z' :=
        dropWhile_head_false p c _ hcf
      have h2 : dropL p (c :: z') = c :: z' := dropWhile_head_false p c _ hcf
      rw [h1, h2, dropR_cons_of_not p c z' hcf]

theorem dropL_filter_dropL (p q : Char → Bool) (hq : ∀ c, p c = true → q c = true)
    (l : List Char) :
    dropL p ((dropL p l).filter q) = dropL p (l.filter q) := by
  induction l with
  | nil => rfl
  | cons c t ih =>
    by_cases hc : p c = true
    · have hL : dropL p (c :: t) = dropL p t := by
        simp only [dropL, List.dropWhile_cons, hc, if_true]
      rw [hL, ih, List.filter_cons, hq c hc]
      simp only [if_true]
      have : dropL p (c :: t.filter q) = dropL p (t.filter q) := by
        simp only [dropL, List.dropWhile_cons, hc, if_true]
      rw [this]
    · have hcf : p c = false := bool_eq_false hc
      rw [show dropL p (c :: t) = c :: t from dropWhile_head_false p c t hcf]

theorem filter_rev (q : Char → Bool) (l : List Char) :
    l.reverse.filter q = (l.filter q).reverse := by
  induction l with
  | nil => rfl
  | cons c t ih =>
    rw [List.reverse_cons, List.filter_append, ih]
    by_cases hc : q c = true
    · simp [List.filter_cons, hc]
    · simp [List.filter_cons, bool_eq_false hc]

theorem dropR_filter_dropR (p q : Char → Bool) (hq : ∀ c, p c = true → q c = true)
    (l : List Char) :
    dropR p ((dropR p l).filter q) = dropR p (l.filter q) := by
  have hrev : (dropR p l).reverse = dropL p l.reverse := by
    rw [dropR, List.reverse_reverse]
    rfl
  have hdef : ∀ w : List Char, dropR p w = (dropL p w.reverse).reverse := fun w => rfl
  rw [hdef ((dropR p l).filter q), hdef (l.filter q)]
  congr 1
  rw [← filter_rev q (dropR p l), hrev, ← filter_rev q l]
  exact dropL_filter_dropL p q hq l.reverse

theorem strip_filter_strip (q : Char → Bool) (hq : ∀ c, isSpaceC c = true → q c = true)
    (x : List Char) :
    stripChars ((stripChars x).filter q) = stripChars (x.filter q) := by
  rw [stripChars, stripChars, stripChars]
  have step1 : ∀ y : List Char,
      dropR isSpaceC (dropL isSpaceC ((dropR isSpaceC y).filter q)) =
        dropR isSpaceC (dropL isSpaceC (y.filter q)) := by
    intro y
    rw [← dropL_dropR_comm, dropR_filter_dropR isSpaceC q hq y, dropL_dropR_comm]
  rw [step1 (dropL isSpaceC x)]
  rw [dropL_filter_dropL isSpaceC q hq x]

theorem removeChar_removeChar (l : List Char) :
    removeChar '$' (removeChar ',' l) =
      l.filter (fun c => decide (c ≠ ',') && decide (c ≠ '$')) := by
  rw [removeChar, removeChar, List.filter_filter]
  apply List.filter_congr
  intro a _
  simp [Bool.and_comm]

theorem space_keeps_q (c : Char) (h : isSpaceC c = true) :
    (decide (c ≠ ',') && decide (c ≠ '$')) = true := by
  have h1 : c ≠ ',' := by
    intro he
    rw [he] at h
    exact absurd h (by decide)
  have h2 : c ≠ '$' := by
    intro he
    rw [he] at h
    exact absurd h (by decide)
  rw [decide_eq_true h1, decide_eq_true h2]
  rfl

theorem mem_dropL (p : Char → Bool) (c : Char) (l : List Char) (hc : c ∈ l)
    (hpc : p c = false) : c ∈ dropL p l := by
  induction l with
  | nil => simp at hc
  | cons a t ih =>
    by_cases ha : p a = true
    · have hL : dropL p (a :: t) = dropL p t := by
        simp only [dropL, List.dropWhile_cons, ha, if_true]
      rw [hL]
      rcases List.mem_cons.mp hc with rfl | hc
      · rw [ha] at hpc
        exact absurd hpc (by simp)
      · exact ih hc
    · rw [show dropL p (a :: t) = a :: t from
        dropWhile_head_false p a t (bool_eq_false ha)]
      exact hc

theorem mem_dropR (p : Char → Bool) (c : Char) (l : List Char) (hc : c ∈ l)
    (hpc : p c = false) : c ∈ dropR p l := by
  rw [dropR, List.mem_reverse]
  exact mem_dropL p c l.reverse (List.mem_reverse.mpr hc) hpc

theorem strip_ne_nil_of_mem (l : List Char) (c : Char) (hc : c ∈ l)
    (hs : isSpaceC c = false) : stripChars l ≠ [] := by
  rw [stripChars]
  exact List.ne_nil_of_mem (mem_dropR isSpaceC c _ (mem_dropL isSpaceC c l hc hs) hs)

/-- C10: normalize_amount deletes every comma and dollar sign wherever it
occurs before decimal parsing: inserting such a character at any position
of an accepted input leaves the result unchanged, and inputs like "1,2,3"
and "1$2$" are accepted, normalizing to "123" and "12". -/
theorem normalize_removes_commas_dollars_anywhere :
    (∀ (s1 s2 : List Char) (c : Char) (r : String),
      (c = ',' ∨ c = '$') →
      normalize_amount (some (String.mk (s1 ++ s2))) = .ok r →
      normalize_amount (some (String.mk (s1 ++ c :: s2))) = .ok r) ∧
    normalize_amount (some "1,2,3") = .ok "123" ∧
    normalize_amount (some "1$2$") = .ok "12" := by
  refine ⟨?_, by decide, by decide⟩
  intro s1 s2 c r hc h
  rw [normalize_amount_some, data_mk] at h
  rw [normalize_amount_some, data_mk]
  have hcs : isSpaceC c = false := by
    rcases hc with rfl | rfl
    · decide
    · decide
  have hmem : c ∈ s1 ++ c :: s2 := List.mem_append.mpr (Or.inr (List.mem_cons_self _ _))
  have hne2 : stripChars (s1 ++ c :: s2) ≠ [] := strip_ne_nil_of_mem _ c hmem hcs
  rw [if_neg hne2]
  by_cases he : stripChars (s1 ++ s2) = []
  · rw [if_pos he] at h
    exact absurd h (by simp)
  · rw [if_neg he] at h
    have hq : ∀ x, isSpaceC x = true → (decide (x ≠ ',') && decide (x ≠ '$')) = true :=
      space_keeps_q
    have hstrip : stripChars (removeChar '$' (removeChar ',' (stripChars (s1 ++ c :: s2)))) =
        stripChars (removeChar '$' (removeChar ',' (stripChars (s1 ++ s2)))) := by
      rw [removeChar_removeChar, removeChar_removeChar,
        strip_filter_strip _ hq (s1 ++ c :: s2), strip_filter_strip _ hq (s1 ++ s2)]
      congr 1
      rw [List.filter_append, List.filter_append, List.filter_cons]
      have hQc : (decide (c ≠ ',') && decide (c ≠ '$')) = false := by
        rcases hc with rfl | rfl
        · decide
        · decide
      rw [hQc]
      simp
    have hpd : pyDecimal (removeChar '$' (removeChar ',' (stripChars (s1 ++ c :: s2)))) =
        pyDecimal (removeChar '$' (removeChar ',' (stripChars (s1 ++ s2)))) := by
      rw [pyDecimal, pyDecimal, hstrip]
    rw [hpd]
    exact h

/-- Witness for the insertion clause of the C10 theorem. -/
theorem normalize_removes_commas_dollars_anywhere_witness :
    ((',' : Char) = ',' ∨ (',' : Char) = '$') ∧
    normalize_amount (some (String.mk (('1' :: []) ++ ('2' :: [])))) = .ok "12" ∧
    normalize_amount (some (String.mk (('1' :: []) ++ ',' :: ('2' :: [])))) = .ok "12" :=
  ⟨Or.inl rfl, by decide,
    normalize_removes_commas_dollars_anywhere.1 ('1' :: []) ('2' :: []) ',' "12"
      (Or.inl rfl) (by decide)⟩
